import Mathlib

/-!
Verification of `procedural_solutions/numbers.c`.

A shallow embedding of the integer routines of `numbers.c`
(`prime_factors`, `fibonacci_to_n`, `n_fibonacci_elements`, `is_prime`,
`find_next_prime`) and of the series loop of `find_e_to_nth_digit` in exact
rational arithmetic, together with the properties proved about them.

Conventions of the embedding.

* A C `int` is an `Int`; `%` and `/` on `int` are `Int.tmod` and `Int.tdiv`
  (C truncates toward zero).  Where an `int` operation can leave the 32-bit
  range the result is reduced with `wrap32` (two's complement).  An `unsigned`
  is a `Nat` reduced with `wrapU32`.
* `printf` is modelled by the list of numbers printed, in order.
* Every loop is a function by structural recursion on a fuel argument that
  returns `none` when the fuel runs out; `Halts` says that all sufficiently
  large fuels give the same result, `Diverges` that no fuel gives one.
-/

namespace Numbers

/-! ## Machine integers and runs -/

/-- Largest value of the 32-bit C type `int`. -/
def INT_MAX : Int := 2147483647

/-- Smallest value of the 32-bit C type `int`. -/
def INT_MIN : Int := -2147483648

/-- Two's-complement reduction of an integer to the range of `int`. -/
def wrap32 (x : Int) : Int := (x + 2147483648) % 4294967296 - 2147483648

/-- Reduction of a natural number to the range of `unsigned`. -/
def wrapU32 (x : Nat) : Nat := x % 4294967296

/-- The run `run` (indexed by fuel) halts with value `v`: every fuel from some
point on yields `some v`. -/
def Halts {α : Type} (run : Nat → Option α) (v : α) : Prop :=
  ∃ N, ∀ fuel, N ≤ fuel → run fuel = some v

/-- The run `run` never halts: it exhausts every fuel. -/
def Diverges {α : Type} (run : Nat → Option α) : Prop :=
  ∀ fuel, run fuel = none

/-! ## `prime_factors` -/

/-- The loop `while (n % i == 0) { printf("%d ", i); n /= i; }` of
`prime_factors` (lines 170-173), and with `i = 2` the loop of lines 164-167.
Returns the numbers printed and the value of `n` on exit. -/
def divide_out : Nat → Int → Int → Option (List Int × Int)
  | 0, _, _ => none
  | fuel + 1, i, n =>
    if Int.tmod n i = 0 then
      match divide_out fuel i (Int.tdiv n i) with
      | some (out, m) => some (i :: out, m)
      | none => none
    else some ([], n)

/-- The statement `int limit = pow(n, 0.5) + 1;` (line 168): the square root is
taken as the exact real square root, truncated by the conversion to `int`.
For `n < 0` the C conversion is undefined; the embedding then yields `1`. -/
def sqrt_limit (n : Int) : Int := (Nat.sqrt n.toNat : Int) + 1

/-- The loop `for (int i = 3; i < limit; i += 2) { while ... }` of
`prime_factors` (lines 169-174), entered with the current `i`.  `inner` is the
fuel handed to each run of the inner loop.  No wrap is applied to `i + 2`:
`limit` is at most 46342 for an `int` argument. -/
def odd_loop (inner : Nat) : Nat → Int → Int → Int → Option (List Int × Int)
  | 0, _, _, _ => none
  | fuel + 1, limit, i, n =>
    if i < limit then
      match divide_out inner i n with
      | none => none
      | some (out1, m) =>
        match odd_loop inner fuel limit (i + 2) m with
        | none => none
        | some (out2, r) => some (out1 ++ out2, r)
    else some ([], n)

/-- The function `prime_factors(int n)` (lines 162-179): the list of numbers
printed. -/
def prime_factors (fuel : Nat) (n : Int) : Option (List Int) :=
  match divide_out fuel 2 n with
  | none => none
  | some (out1, n1) =>
    match odd_loop fuel fuel (sqrt_limit n1) 3 n1 with
    | none => none
    | some (out2, n2) => some (out1 ++ out2 ++ (if n2 > 2 then [n2] else []))

/-- No integer `d` with `2 ≤ d < i` divides `n`: the trial divisors below `i`
have all been removed from `n`. -/
def NoDivBelow (i n : Int) : Prop := ∀ d : Int, 2 ≤ d → d < i → ¬ d ∣ n

/-! ## `fibonacci_to_n` -/

/-- The loop `while (1) { int next = f1 + f2; if (next > n) break; ... }` of
`fibonacci_to_n` (lines 135-143).  The `int` sum is reduced with `wrap32`.
Returns the numbers printed by the loop. -/
def fibonacci_to_n_loop : Nat → Int → Int → Int → Option (List Int)
  | 0, _, _, _ => none
  | fuel + 1, f1, f2, n =>
    if wrap32 (f1 + f2) > n then some []
    else
      match fibonacci_to_n_loop fuel f2 (wrap32 (f1 + f2)) n with
      | some out => some (wrap32 (f1 + f2) :: out)
      | none => none

/-- The function `fibonacci_to_n(int n)` (lines 128-145): the list of numbers
printed. -/
def fibonacci_to_n (fuel : Nat) (n : Int) : Option (List Int) :=
  match fibonacci_to_n_loop fuel 0 1 n with
  | none => none
  | some out => some ((if n ≥ 0 then [0] else []) ++ (if n ≥ 1 then [1] else []) ++ out)

/-! ## `n_fibonacci_elements` -/

/-- The loop `for (int i = 2; i < n; i++) { unsigned next = f1 + f2; ... }` of
`n_fibonacci_elements` (lines 153-158), entered with the current `i`.  The
`unsigned` sum is reduced with `wrapU32`; `i + 1` cannot leave the range of
`int` because `i < n`. -/
def n_fibonacci_elements_loop : Nat → Int → Nat → Nat → Int → Option (List Nat)
  | 0, _, _, _, _ => none
  | fuel + 1, i, f1, f2, n =>
    if i < n then
      match n_fibonacci_elements_loop fuel (i + 1) f2 (wrapU32 (f1 + f2)) n with
      | some out => some (wrapU32 (f1 + f2) :: out)
      | none => none
    else some []

/-- The function `n_fibonacci_elements(int n)` (lines 147-160): the list of
numbers printed. -/
def n_fibonacci_elements (fuel : Nat) (n : Int) : Option (List Nat) :=
  match n_fibonacci_elements_loop fuel 2 0 1 n with
  | none => none
  | some out => some ((if n ≥ 1 then [0] else []) ++ (if n ≥ 2 then [1] else []) ++ out)

/-! ## `is_prime` -/

/-- The loop `for (int i = 3; i * i <= n; i += 2) if (n % i == 0) return 0;`
followed by `return 1;` (lines 186-189), entered with the current `i`.  The
`int` product `i * i` and the increment are reduced with `wrap32`. -/
def is_prime_loop : Nat → Int → Int → Option Int
  | 0, _, _ => none
  | fuel + 1, i, n =>
    if wrap32 (i * i) ≤ n then
      if Int.tmod n i = 0 then some 0
      else is_prime_loop fuel (wrap32 (i + 2)) n
    else some 1

/-- The function `is_prime(int n)` (lines 181-190): the value returned. -/
def is_prime (fuel : Nat) (n : Int) : Option Int :=
  if n ≤ 1 then some 0
  else if n = 2 then some 1
  else if Int.tmod n 2 = 0 then some 0
  else is_prime_loop fuel 3 n

/-- The products `i * i` evaluated by the loop condition `i * i <= n` of
`is_prime` (line 186), as exact integers, in the order of evaluation.  The
control flow is that of `is_prime_loop`: the test compares the wrapped product
with `n`, and the list ends with the product of the last test evaluated. -/
def is_prime_squares_loop : Nat → Int → Int → Option (List Int)
  | 0, _, _ => none
  | fuel + 1, i, n =>
    if wrap32 (i * i) ≤ n then
      if Int.tmod n i = 0 then some [i * i]
      else
        match is_prime_squares_loop fuel (wrap32 (i + 2)) n with
        | some t => some (i * i :: t)
        | none => none
    else some [i * i]

/-- The products `i * i` evaluated during a call `is_prime(n)`: none when the
function returns before the loop (lines 182-184). -/
def is_prime_squares (fuel : Nat) (n : Int) : Option (List Int) :=
  if n ≤ 1 then some []
  else if n = 2 then some []
  else if Int.tmod n 2 = 0 then some []
  else is_prime_squares_loop fuel 3 n

/-! ## `find_next_prime` -/

/-- The loop `while (1)` of `find_next_prime` (lines 197-207), entered with the
current cursor.  `replies` holds the characters read by `scanf_s("%c", ...)`,
one per prime displayed (`clear_input_buffer` drops the rest of each line); the
empty list is end of input.  `pfuel` is the fuel handed to each call of
`is_prime`.  Returns the values displayed. -/
def find_next_prime_loop (pfuel : Nat) : Nat → Int → List Char → Option (List Int)
  | 0, _, _ => none
  | fuel + 1, current, replies =>
    match is_prime pfuel current with
    | none => none
    | some r =>
      if r ≠ 0 then
        match replies with
        | [] => some [current]
        | choice :: rest =>
          if choice.toLower ≠ 'n' then some [current]
          else
            match find_next_prime_loop pfuel fuel (wrap32 (current + 1)) rest with
            | some out => some (current :: out)
            | none => none
      else find_next_prime_loop pfuel fuel (wrap32 (current + 1)) replies

/-- The function `find_next_prime()` (lines 192-209): the values displayed, the
cursor starting at 2. -/
def find_next_prime (fuel : Nat) (replies : List Char) : Option (List Int) :=
  find_next_prime_loop fuel fuel 2 replies

/-! ## `find_e_to_nth_digit`, in exact arithmetic -/

/-- The loop `while (1) { e += (1.0 / factorial); if ((1.0 / factorial) <
accuracy) break; k += 1; factorial *= k; }` of `find_e_to_nth_digit`
(lines 115-122), with the `double` operations replaced by exact operations on
rationals.  Returns the value of `e` on exit. -/
def find_e_to_nth_digit_loop : Nat → ℚ → ℚ → ℚ → ℚ → Option ℚ
  | 0, _, _, _, _ => none
  | fuel + 1, accuracy, e, factorial, k =>
    if 1 / factorial < accuracy then some (e + 1 / factorial)
    else find_e_to_nth_digit_loop fuel accuracy (e + 1 / factorial) (factorial * (k + 1)) (k + 1)

/-- The value of `e` before rounding in `find_e_to_nth_digit(int n)`
(lines 110-122), in exact arithmetic: `accuracy = pow(10, -n)`, `e = 0.0`,
`factorial = 1.0`, `k = 0.0`. -/
def find_e_to_nth_digit_sum (fuel : Nat) (n : Int) : Option ℚ :=
  find_e_to_nth_digit_loop fuel ((10 : ℚ) ^ (-n)) 0 1 0

/-- Proof device: `a ^ k % p` by repeated squaring, where `bits` bounds the
binary length of `k`.  Used only to certify that `2147483647` is prime. -/
def powMod (p : Nat) : Nat → Nat → Nat → Nat
  | 0, _, _ => 1 % p
  | bits + 1, a, k =>
    if k % 2 = 1 then (a * powMod p bits (a * a % p) (k / 2)) % p
    else powMod p bits (a * a % p) (k / 2)

/-- Proof device: `(F_(k-1), F_k, F_(k+1))` modulo `m` by index doubling, with
`F_(-1) = 1`; `bits` bounds the binary length of `k`.  Used only to locate a
Fibonacci number that is `2147483647` modulo `2^32`. -/
def fibTripleMod (m : Nat) : Nat → Nat → Nat × Nat × Nat
  | 0, _ => (1 % m, 0 % m, 1 % m)
  | bits + 1, k =>
    match fibTripleMod m bits (k / 2) with
    | (p, a, b) =>
      if k % 2 = 0 then ((p * p + a * a) % m, (a * (p + b)) % m, (a * a + b * b) % m)
      else ((a * (p + b)) % m, (a * a + b * b) % m,
        ((a * (p + b)) % m + (a * a + b * b) % m) % m)

/-- Proof device: the Fibonacci sequence shifted by one, `fibPred k = F_(k-1)`,
with `F_(-1) = 1`. -/
def fibPred (k : Nat) : Nat := if k = 0 then 1 else Nat.fib (k - 1)

/-! # Theorems -/

/-! ## Primality from the absence of small divisors -/

theorem prime_of_noDiv_lt (p : Int) (hp : 2 ≤ p)
    (h : ∀ d : Int, 2 ≤ d → d < p → ¬ d ∣ p) : Nat.Prime p.toNat := by
  lift p to ℕ using (by omega)
  rw [Int.toNat_natCast, Nat.prime_def_lt']
  refine ⟨by omega, fun m hm hlt hdvd => ?_⟩
  exact h (m : Int) (by omega) (by omega) (Int.natCast_dvd_natCast.mpr hdvd)

theorem prime_of_noDiv_sq (p : Int) (hp : 2 ≤ p)
    (h : ∀ d : Int, 2 ≤ d → d * d ≤ p → ¬ d ∣ p) : Nat.Prime p.toNat := by
  lift p to ℕ using (by omega)
  rw [Int.toNat_natCast, Nat.prime_def_le_sqrt]
  refine ⟨by omega, fun m hm hle hdvd => ?_⟩
  have hsq : m * m ≤ p := Nat.le_sqrt.mp hle
  exact h (m : Int) (by omega) (by exact_mod_cast hsq) (Int.natCast_dvd_natCast.mpr hdvd)

/-! ## The division loop -/

theorem divide_out_mono (i : Int) : ∀ (fuel fuel' : Nat) (n : Int) (r : List Int × Int),
    fuel ≤ fuel' → divide_out fuel i n = some r → divide_out fuel' i n = some r := by
  intro fuel
  induction fuel with
  | zero => intro fuel' n r _ h; simp [divide_out] at h
  | succ f ih =>
    intro fuel' n r hle h
    obtain ⟨g, rfl⟩ : ∃ g, fuel' = g + 1 := ⟨fuel' - 1, by omega⟩
    simp only [divide_out] at h ⊢
    by_cases hd : Int.tmod n i = 0
    · rw [if_pos hd] at h ⊢
      cases hrec : divide_out f i (Int.tdiv n i) with
      | none => simp [hrec] at h
      | some q =>
        rw [ih g _ q (by omega) hrec]
        simpa [hrec] using h
    · rw [if_neg hd] at h ⊢
      exact h

theorem divide_out_spec (i : Int) (hi : 2 ≤ i) : ∀ (fuel : Nat) (n : Int) (out : List Int)
    (m : Int), 1 ≤ n → divide_out fuel i n = some (out, m) →
    (∀ x ∈ out, x = i) ∧ out.prod * m = n ∧ 1 ≤ m ∧ m ∣ n ∧ ¬ (i ∣ m) ∧ (out ≠ [] → i ∣ n) := by
  intro fuel
  induction fuel with
  | zero => intro n out m _ h; simp [divide_out] at h
  | succ f ih =>
    intro n out m hn h
    simp only [divide_out] at h
    rw [Int.tmod_eq_emod (by omega) (by omega), Int.tdiv_eq_ediv (by omega) (by omega)] at h
    by_cases hd : n % i = 0
    · rw [if_pos hd] at h
      have hdvd : i ∣ n := Int.dvd_of_emod_eq_zero hd
      have hmul : i * (n / i) = n := Int.mul_ediv_cancel' hdvd
      have hq : 1 ≤ n / i := by
        by_contra hc
        have : n / i ≤ 0 := by omega
        nlinarith
      cases hrec : divide_out f i (n / i) with
      | none => simp [hrec] at h
      | some q =>
        obtain ⟨out', m'⟩ := q
        simp only [hrec, Option.some.injEq, Prod.mk.injEq] at h
        obtain ⟨rfl, rfl⟩ := h
        obtain ⟨h1, h2, h3, h4, h5, _⟩ := ih (n / i) out' m' hq hrec
        refine ⟨?_, ?_, h3, ?_, h5, fun _ => hdvd⟩
        · intro x hx
          rcases List.mem_cons.mp hx with hx | hx
          · exact hx
          · exact h1 x hx
        · rw [List.prod_cons, mul_assoc, h2, hmul]
        · exact Int.dvd_trans h4 ⟨i, by rw [mul_comm]; exact hmul.symm⟩
    · rw [if_neg hd] at h
      simp only [Option.some.injEq, Prod.mk.injEq] at h
      obtain ⟨rfl, rfl⟩ := h
      refine ⟨by simp, by simp, hn, dvd_refl _, ?_, by simp⟩
      intro hdvd
      exact hd (Int.emod_eq_zero_of_dvd hdvd)

theorem divide_out_halts (i : Int) (hi : 2 ≤ i) : ∀ (fuel : Nat) (n : Int),
    1 ≤ n → n.toNat ≤ fuel → ∃ r, divide_out fuel i n = some r := by
  intro fuel
  induction fuel with
  | zero => intro n hn hf; omega
  | succ f ih =>
    intro n hn hf
    simp only [divide_out]
    rw [Int.tmod_eq_emod (by omega) (by omega), Int.tdiv_eq_ediv (by omega) (by omega)]
    by_cases hd : n % i = 0
    · rw [if_pos hd]
      have hmul : i * (n / i) = n := Int.mul_ediv_cancel' (Int.dvd_of_emod_eq_zero hd)
      have hq : 1 ≤ n / i := by
        by_contra hc
        have : n / i ≤ 0 := by omega
        nlinarith
      have hlt : n / i < n := by nlinarith
      obtain ⟨r, hr⟩ := ih (n / i) hq (by omega)
      exact ⟨(i :: r.1, r.2), by rw [hr]⟩
    · rw [if_neg hd]
      exact ⟨_, rfl⟩

/-! ## The odd-candidate loop -/

theorem odd_loop_mono (limit : Int) : ∀ (fuel fuel' inner inner' : Nat) (i n : Int)
    (r : List Int × Int), fuel ≤ fuel' → inner ≤ inner' →
    odd_loop inner fuel limit i n = some r → odd_loop inner' fuel' limit i n = some r := by
  intro fuel
  induction fuel with
  | zero => intro fuel' inner inner' i n r _ _ h; simp [odd_loop] at h
  | succ f ih =>
    intro fuel' inner inner' i n r hle hin h
    obtain ⟨g, rfl⟩ : ∃ g, fuel' = g + 1 := ⟨fuel' - 1, by omega⟩
    simp only [odd_loop] at h ⊢
    by_cases hc : i < limit
    · rw [if_pos hc] at h ⊢
      cases hdiv : divide_out inner i n with
      | none => simp [hdiv] at h
      | some q =>
        obtain ⟨out1, m⟩ := q
        rw [divide_out_mono i inner inner' n _ hin hdiv]
        cases hrec : odd_loop inner f limit (i + 2) m with
        | none => simp [hdiv, hrec] at h
        | some q2 =>
          have hrec' := ih g inner inner' (i + 2) m q2 (by omega) hin hrec
          simp only [hdiv, hrec] at h
          simp only [hrec']
          exact h
    · rw [if_neg hc] at h ⊢
      exact h

theorem noDivBelow_of_dvd {i n m : Int} (h : NoDivBelow i n) (hm : m ∣ n) : NoDivBelow i m :=
  fun d hd hlt hdm => h d hd hlt (Int.dvd_trans hdm hm)

theorem noDivBelow_step {i m : Int} (hi : 3 ≤ i) (hodd : i % 2 = 1) (h : NoDivBelow i m)
    (hnot : ¬ i ∣ m) : NoDivBelow (i + 2) m := by
  intro d hd hlt hdm
  by_cases h1 : d < i
  · exact h d hd h1 hdm
  · by_cases h2 : d = i
    · exact hnot (h2 ▸ hdm)
    · have h3 : d = i + 1 := by omega
      have h4 : (2 : Int) ∣ d := Int.dvd_of_emod_eq_zero (by omega)
      exact h 2 (by omega) (by omega) (Int.dvd_trans h4 hdm)

theorem odd_loop_spec (inner : Nat) (limit : Int) : ∀ (fuel : Nat) (i n : Int)
    (out : List Int) (r : Int), 3 ≤ i → i % 2 = 1 → 1 ≤ n → NoDivBelow i n →
    odd_loop inner fuel limit i n = some (out, r) →
    (∀ x ∈ out, Nat.Prime x.toNat ∧ i ≤ x ∧ x < limit) ∧ out.Pairwise (· ≤ ·) ∧
      out.prod * r = n ∧ 1 ≤ r ∧ r ∣ n ∧ NoDivBelow limit r := by
  intro fuel
  induction fuel with
  | zero => intro i n out r _ _ _ _ h; simp [odd_loop] at h
  | succ f ih =>
    intro i n out r hi hodd hn hno h
    simp only [odd_loop] at h
    by_cases hc : i < limit
    · rw [if_pos hc] at h
      cases hdiv : divide_out inner i n with
      | none => simp [hdiv] at h
      | some q =>
        obtain ⟨out1, m⟩ := q
        cases hrec : odd_loop inner f limit (i + 2) m with
        | none => simp [hdiv, hrec] at h
        | some q2 =>
          obtain ⟨out2, r2⟩ := q2
          simp only [hdiv, hrec, Option.some.injEq, Prod.mk.injEq] at h
          obtain ⟨rfl, rfl⟩ := h
          obtain ⟨d1, d2, d3, d4, d5, d6⟩ := divide_out_spec i (by omega) inner n out1 m hn hdiv
          have hnom : NoDivBelow (i + 2) m :=
            noDivBelow_step hi hodd (noDivBelow_of_dvd hno d4) d5
          obtain ⟨e1, e2, e3, e4, e5, e6⟩ :=
            ih (i + 2) m out2 r2 (by omega) (by omega) d3 hnom hrec
          have hprime : out1 ≠ [] → Nat.Prime i.toNat := fun hne =>
            prime_of_noDiv_lt i (by omega)
              (fun d hd hlt hdi => hno d hd hlt (Int.dvd_trans hdi (d6 hne)))
          refine ⟨?_, ?_, ?_, e4, Int.dvd_trans e5 d4, e6⟩
          · intro x hx
            rcases List.mem_append.mp hx with hx | hx
            · have hxi := d1 x hx
              subst hxi
              exact ⟨hprime (List.ne_nil_of_mem hx), le_refl _, hc⟩
            · obtain ⟨p1, p2, p3⟩ := e1 x hx
              exact ⟨p1, by omega, p3⟩
          · rw [List.pairwise_append]
            refine ⟨?_, e2, ?_⟩
            · rw [List.pairwise_iff_forall_sublist]
              intro a b hab
              have ha := d1 a (hab.subset (by simp))
              have hb := d1 b (hab.subset (by simp))
              omega
            · intro a ha b hb
              have := d1 a ha
              have := (e1 b hb).2.1
              omega
          · rw [List.prod_append, mul_assoc, e3, d2]
    · rw [if_neg hc] at h
      simp only [Option.some.injEq, Prod.mk.injEq] at h
      obtain ⟨rfl, rfl⟩ := h
      refine ⟨by simp, by simp, by simp, hn, dvd_refl _, ?_⟩
      intro d hd hlt
      exact hno d hd (by omega)

theorem odd_loop_halts (inner : Nat) (limit : Int) : ∀ (fuel : Nat) (i n : Int),
    2 ≤ i → 1 ≤ n → n.toNat ≤ inner → (limit - i).toNat + 1 ≤ fuel →
    ∃ r, odd_loop inner fuel limit i n = some r := by
  intro fuel
  induction fuel with
  | zero => intro i n _ _ _ hf; omega
  | succ f ih =>
    intro i n hi hn hin hf
    simp only [odd_loop]
    by_cases hc : i < limit
    · rw [if_pos hc]
      obtain ⟨⟨out1, m⟩, hdiv⟩ := divide_out_halts i hi inner n hn hin
      obtain ⟨_, _, d3, d4, _, _⟩ := divide_out_spec i hi inner n out1 m hn hdiv
      have hmn : m ≤ n := Int.le_of_dvd (by omega) d4
      obtain ⟨r, hr⟩ := ih (i + 2) m (by omega) d3 (by omega) (by omega)
      exact ⟨(out1 ++ r.1, r.2), by rw [hdiv]; simp only []; rw [hr]⟩
    · rw [if_neg hc]
      exact ⟨_, rfl⟩

/-! ## `prime_factors` -/

theorem prime_factors_mono (n : Int) (fuel fuel' : Nat) (out : List Int) (hle : fuel ≤ fuel')
    (h : prime_factors fuel n = some out) : prime_factors fuel' n = some out := by
  simp only [prime_factors] at h ⊢
  cases hdiv : divide_out fuel 2 n with
  | none => simp [hdiv] at h
  | some q =>
    obtain ⟨out1, n1⟩ := q
    cases hodd : odd_loop fuel fuel (sqrt_limit n1) 3 n1 with
    | none => simp [hdiv, hodd] at h
    | some q2 =>
      have hdiv' := divide_out_mono 2 fuel fuel' n _ hle hdiv
      have hodd' := odd_loop_mono (sqrt_limit n1) fuel fuel' fuel fuel' 3 n1 q2 hle hle hodd
      simp only [hdiv, hodd] at h
      simp only [hdiv', hodd']
      exact h

theorem prime_factors_halts (n : Int) (hn : 2 ≤ n) :
    ∃ out, Halts (fun fuel => prime_factors fuel n) out := by
  have hN : ∃ out, prime_factors (n.toNat + 1) n = some out := by
    obtain ⟨⟨out1, n1⟩, hdiv⟩ := divide_out_halts 2 (by omega) (n.toNat + 1) n (by omega) (by omega)
    obtain ⟨_, _, d3, d4, _, _⟩ := divide_out_spec 2 (by omega) _ n out1 n1 (by omega) hdiv
    have hle : n1 ≤ n := Int.le_of_dvd (by omega) d4
    have hsq : Nat.sqrt n1.toNat ≤ n1.toNat := Nat.sqrt_le_self _
    obtain ⟨⟨out2, n2⟩, hodd⟩ := odd_loop_halts (n.toNat + 1) (sqrt_limit n1) (n.toNat + 1) 3 n1
      (by omega) d3 (by omega) (by unfold sqrt_limit; omega)
    exact ⟨out1 ++ out2 ++ (if n2 > 2 then [n2] else []), by
      simp only [prime_factors, hdiv, hodd]⟩
  obtain ⟨out, hout⟩ := hN
  exact ⟨out, n.toNat + 1, fun fuel hf => prime_factors_mono n _ fuel out hf hout⟩

theorem prime_factors_sound (n : Int) (hn : 2 ≤ n) (fuel : Nat) (out : List Int)
    (h : prime_factors fuel n = some out) :
    (∀ p ∈ out, Nat.Prime p.toNat ∧ 2 ≤ p) ∧ out.prod = n ∧ out.Pairwise (· ≤ ·) := by
  simp only [prime_factors] at h
  cases hdiv : divide_out fuel 2 n with
  | none => simp [hdiv] at h
  | some q =>
    obtain ⟨out1, n1⟩ := q
    cases hodd : odd_loop fuel fuel (sqrt_limit n1) 3 n1 with
    | none => simp [hdiv, hodd] at h
    | some q2 =>
      obtain ⟨out2, n2⟩ := q2
      simp only [hdiv, hodd, Option.some.injEq] at h
      obtain ⟨d1, d2, d3, d4, d5, _⟩ := divide_out_spec 2 (by omega) fuel n out1 n1 (by omega) hdiv
      have hno3 : NoDivBelow 3 n1 := by
        intro d hd hlt hdvd
        have : d = 2 := by omega
        exact d5 (this ▸ hdvd)
      obtain ⟨e1, e2, e3, e4, e5, e6⟩ :=
        odd_loop_spec fuel (sqrt_limit n1) fuel 3 n1 out2 n2 (by omega) (by omega) d3 hno3 hodd
      have hn21 : n2 ≤ n1 := Int.le_of_dvd (by omega) e5
      have hn2ne : n2 ≠ 2 := fun h2 => d5 (h2 ▸ e5)
      -- the leftover value, when printed, is a prime not below the limit
      have hlast : 2 < n2 → Nat.Prime n2.toNat ∧ sqrt_limit n1 ≤ n2 := by
        intro h2
        constructor
        · apply prime_of_noDiv_sq n2 (by omega)
          intro d hd hsq
          apply e6 d hd
          have hd0 : (d.toNat : Int) = d := Int.toNat_of_nonneg (by omega)
          have h1 : d.toNat * d.toNat ≤ n1.toNat := by
            have : (d.toNat : Int) * (d.toNat : Int) ≤ n1 := by rw [hd0]; omega
            have h0 : ((n1.toNat : Nat) : Int) = n1 := Int.toNat_of_nonneg (by omega)
            rw [← h0] at this
            exact_mod_cast this
          have h2 : d.toNat ≤ Nat.sqrt n1.toNat := Nat.le_sqrt.mpr h1
          unfold sqrt_limit
          omega
        · by_contra hc
          exact e6 n2 (by omega) (by omega) (dvd_refl _)
      have hp1 : ∀ x ∈ out1, Nat.Prime x.toNat ∧ 2 ≤ x := by
        intro x hx
        rw [d1 x hx]
        exact ⟨Nat.prime_two, le_refl _⟩
      have hp2 : ∀ x ∈ out2, Nat.Prime x.toNat ∧ 2 ≤ x := by
        intro x hx
        obtain ⟨p1, p2, _⟩ := e1 x hx
        exact ⟨p1, by omega⟩
      have h12 : (out1 ++ out2).Pairwise (· ≤ ·) := by
        rw [List.pairwise_append]
        refine ⟨?_, e2, ?_⟩
        · rw [List.pairwise_iff_forall_sublist]
          intro a b hab
          have ha := d1 a (hab.subset (by simp))
          have hb := d1 b (hab.subset (by simp))
          omega
        · intro a ha b hb
          have := d1 a ha
          have := (e1 b hb).2.1
          omega
      by_cases h2 : n2 > 2
      · rw [if_pos h2] at h
        subst h
        obtain ⟨hl1, hl2⟩ := hlast h2
        refine ⟨?_, ?_, ?_⟩
        · intro p hp
          rcases List.mem_append.mp hp with hp | hp
          · rcases List.mem_append.mp hp with hp | hp
            · exact hp1 p hp
            · exact hp2 p hp
          · rw [List.mem_singleton.mp hp]
            exact ⟨hl1, by omega⟩
        · rw [List.prod_append, List.prod_append, List.prod_singleton, mul_assoc, e3, d2]
        · rw [List.pairwise_append]
          refine ⟨h12, by simp, ?_⟩
          intro a ha b hb
          rw [List.mem_singleton.mp hb]
          rcases List.mem_append.mp ha with ha | ha
          · have := d1 a ha
            omega
          · have := (e1 a ha).2.2
            omega
      · rw [if_neg h2] at h
        subst h
        have hn2 : n2 = 1 := by omega
        rw [hn2, mul_one] at e3
        refine ⟨?_, ?_, ?_⟩
        · intro p hp
          rw [List.append_nil] at hp
          rcases List.mem_append.mp hp with hp | hp
          · exact hp1 p hp
          · exact hp2 p hp
        · rw [List.append_nil, List.prod_append, e3, d2]
        · rw [List.append_nil]
          exact h12

/-- C1: for every integer `n ≥ 2`, `prime_factors(n)` halts, every number it
prints is a prime number, and the product of the numbers printed is `n`. -/
theorem prime_factors_primes_product (n : Int) (hn : 2 ≤ n) :
    ∃ out, Halts (fun fuel => prime_factors fuel n) out ∧
      (∀ p ∈ out, Nat.Prime p.toNat) ∧ out.prod = n := by
  obtain ⟨out, N, hN⟩ := prime_factors_halts n hn
  obtain ⟨h1, h2, _⟩ := prime_factors_sound n hn N out (hN N (le_refl _))
  exact ⟨out, ⟨N, hN⟩, fun p hp => (h1 p hp).1, h2⟩

theorem prime_factors_primes_product_witness :
    (2 : Int) ≤ 360 ∧ ∃ out, Halts (fun fuel => prime_factors fuel 360) out ∧
      (∀ p ∈ out, Nat.Prime p.toNat) ∧ out.prod = 360 :=
  ⟨by decide, prime_factors_primes_product 360 (by decide)⟩

/-- C2: for every integer `n ≥ 2`, the numbers printed by `prime_factors(n)`
are in non-decreasing order and each is at least 2; the leftover value, being
the last element of the list, is not smaller than any factor before it. -/
theorem prime_factors_sorted_ge_two (n : Int) (hn : 2 ≤ n) :
    ∃ out, Halts (fun fuel => prime_factors fuel n) out ∧
      out.Pairwise (· ≤ ·) ∧ ∀ p ∈ out, 2 ≤ p := by
  obtain ⟨out, N, hN⟩ := prime_factors_halts n hn
  obtain ⟨h1, _, h3⟩ := prime_factors_sound n hn N out (hN N (le_refl _))
  exact ⟨out, ⟨N, hN⟩, h3, fun p hp => (h1 p hp).2⟩

theorem prime_factors_sorted_ge_two_witness :
    (2 : Int) ≤ 97 ∧ ∃ out, Halts (fun fuel => prime_factors fuel 97) out ∧
      out.Pairwise (· ≤ ·) ∧ ∀ p ∈ out, 2 ≤ p :=
  ⟨by decide, prime_factors_sorted_ge_two 97 (by decide)⟩

theorem sqrt_limit_eval (n k : Nat) (h1 : k * k ≤ n) (h2 : n < (k + 1) * (k + 1)) :
    sqrt_limit (n : Int) = (k : Int) + 1 := by
  unfold sqrt_limit
  rw [Int.toNat_natCast, (Nat.eq_sqrt.mpr ⟨h1, h2⟩ : k = Nat.sqrt n)]

/-- The example of the specification: `360 → 2 2 2 3 3 5`. -/
theorem prime_factors_360 : prime_factors 10 360 = some [2, 2, 2, 3, 3, 5] := by
  have h1 : divide_out 10 2 360 = some ([2, 2, 2], 45) := by decide
  have h2 : sqrt_limit 45 = 7 := sqrt_limit_eval 45 6 (by decide) (by decide)
  have h3 : odd_loop 10 10 7 3 45 = some ([3, 3, 5], 1) := by decide
  simp only [prime_factors, h1, h2, h3]
  rfl

/-- The example of the specification: `97 → 97`. -/
theorem prime_factors_97 : prime_factors 10 97 = some [97] := by
  have h1 : divide_out 10 2 97 = some ([], 97) := by decide
  have h2 : sqrt_limit 97 = 10 := sqrt_limit_eval 97 9 (by decide) (by decide)
  have h3 : odd_loop 10 10 10 3 97 = some ([], 97) := by decide
  simp only [prime_factors, h1, h2, h3]
  rfl

/-- The boundary example of the specification: `2 → 2`. -/
theorem prime_factors_2 : prime_factors 10 2 = some [2] := by
  have h1 : divide_out 10 2 2 = some ([2], 1) := by decide
  have h2 : sqrt_limit 1 = 2 := sqrt_limit_eval 1 1 (by decide) (by decide)
  have h3 : odd_loop 10 10 2 3 1 = some ([], 1) := by decide
  simp only [prime_factors, h1, h2, h3]
  rfl

/-! ## Runs and machine integers -/

theorem Halts.unique {α : Type} {run : Nat → Option α} {a b : α}
    (ha : Halts run a) (hb : Halts run b) : a = b := by
  obtain ⟨N, hN⟩ := ha
  obtain ⟨M, hM⟩ := hb
  have h1 := hN (max N M) (le_max_left _ _)
  have h2 := hM (max N M) (le_max_right _ _)
  rw [h1] at h2
  exact Option.some.inj h2

theorem wrap32_of_range (x : Int) (h1 : -2147483648 ≤ x) (h2 : x ≤ 2147483647) :
    wrap32 x = x := by
  unfold wrap32
  omega

theorem wrap32_le (x : Int) : wrap32 x ≤ 2147483647 := by
  unfold wrap32
  omega

theorem wrap32_ge (x : Int) : -2147483648 ≤ wrap32 x := by
  unfold wrap32
  omega

/-! ## `fibonacci_to_n` -/

theorem fib_46 : Nat.fib 46 = 1836311903 := by decide

theorem fibonacci_to_n_loop_mono (n : Int) : ∀ (fuel fuel' : Nat) (f1 f2 : Int)
    (out : List Int), fuel ≤ fuel' → fibonacci_to_n_loop fuel f1 f2 n = some out →
    fibonacci_to_n_loop fuel' f1 f2 n = some out := by
  intro fuel
  induction fuel with
  | zero => intro fuel' f1 f2 out _ h; simp [fibonacci_to_n_loop] at h
  | succ f ih =>
    intro fuel' f1 f2 out hle h
    obtain ⟨g, rfl⟩ : ∃ g, fuel' = g + 1 := ⟨fuel' - 1, by omega⟩
    simp only [fibonacci_to_n_loop] at h ⊢
    by_cases hc : wrap32 (f1 + f2) > n
    · rw [if_pos hc] at h ⊢
      exact h
    · rw [if_neg hc] at h ⊢
      cases hrec : fibonacci_to_n_loop f f2 (wrap32 (f1 + f2)) n with
      | none => simp [hrec] at h
      | some q =>
        have hrec' := ih g f2 (wrap32 (f1 + f2)) q (by omega) hrec
        simp only [hrec] at h
        simp only [hrec']
        exact h

theorem fibonacci_to_n_mono (n : Int) (fuel fuel' : Nat) (out : List Int) (hle : fuel ≤ fuel')
    (h : fibonacci_to_n fuel n = some out) : fibonacci_to_n fuel' n = some out := by
  simp only [fibonacci_to_n] at h ⊢
  cases hl : fibonacci_to_n_loop fuel 0 1 n with
  | none => simp [hl] at h
  | some q =>
    have hl' := fibonacci_to_n_loop_mono n fuel fuel' 0 1 q hle hl
    simp only [hl] at h
    simp only [hl']
    exact h

theorem fibonacci_to_n_loop_run (n : Int) (hn : n < 1836311903) : ∀ (fuel j : Nat),
    j ≤ 44 → 46 ≤ fuel + j → (∀ i < j + 2, (Nat.fib i : Int) ≤ n) →
    ∃ k, j + 2 ≤ k ∧
      fibonacci_to_n_loop fuel (Nat.fib j) (Nat.fib (j + 1)) n =
        some ((List.range' (j + 2) (k - (j + 2))).map (fun i => (Nat.fib i : Int))) ∧
      (∀ i < k, (Nat.fib i : Int) ≤ n) ∧ n < Nat.fib k := by
  intro fuel
  induction fuel with
  | zero => intro j hj hf _; omega
  | succ f ih =>
    intro j hj hf hpre
    have hsum : (Nat.fib j : Int) + (Nat.fib (j + 1) : Int) = (Nat.fib (j + 2) : Int) := by
      rw [Nat.fib_add_two]
      push_cast
      ring
    have hle46 : Nat.fib (j + 2) ≤ 1836311903 := by
      rw [← fib_46]
      exact Nat.fib_mono (by omega)
    have hw : wrap32 ((Nat.fib (j + 2) : Int)) = (Nat.fib (j + 2) : Int) :=
      wrap32_of_range _ (by omega) (by omega)
    simp only [fibonacci_to_n_loop, hsum, hw]
    by_cases hc : (Nat.fib (j + 2) : Int) > n
    · rw [if_pos hc]
      refine ⟨j + 2, le_refl _, ?_, hpre, hc⟩
      simp
    · rw [if_neg hc]
      have hj2 : j + 2 < 46 := by
        by_contra hge
        have : Nat.fib 46 ≤ Nat.fib (j + 2) := Nat.fib_mono (by omega)
        rw [fib_46] at this
        omega
      have hpre' : ∀ i < j + 1 + 2, (Nat.fib i : Int) ≤ n := by
        intro i hi
        by_cases h2 : i < j + 2
        · exact hpre i h2
        · have : i = j + 2 := by omega
          subst this
          omega
      obtain ⟨k, hk, hrun, hall, hnext⟩ := ih (j + 1) (by omega) (by omega) hpre'
      refine ⟨k, by omega, ?_, hall, hnext⟩
      rw [hrun]
      have hlen : k - (j + 2) = (k - (j + 1 + 2)) + 1 := by omega
      rw [hlen, List.range'_succ, List.map_cons]

/-- Below the first Fibonacci number whose successor leaves the range of `int`
(`F_46 = 1836311903`), `fibonacci_to_n(n)` prints exactly `F_0, ..., F_(k-1)`,
where `k` is the first index with `F_k > n`. -/
theorem fibonacci_to_n_run (n : Int) (hn : n < 1836311903) :
    ∃ k, Halts (fun fuel => fibonacci_to_n fuel n)
        ((List.range k).map (fun i => (Nat.fib i : Int))) ∧
      (∀ i < k, (Nat.fib i : Int) ≤ n) ∧ n < Nat.fib k := by
  by_cases h1 : 1 ≤ n
  · have hpre : ∀ i < 0 + 2, (Nat.fib i : Int) ≤ n := by
      intro i hi
      interval_cases i <;> simp <;> omega
    refine ⟨(fibonacci_to_n_loop_run n hn 46 0 (by omega) (by omega) hpre).choose, ?_⟩
    obtain ⟨hk, hrun, hall, hnext⟩ :=
      (fibonacci_to_n_loop_run n hn 46 0 (by omega) (by omega) hpre).choose_spec
    generalize (fibonacci_to_n_loop_run n hn 46 0 (by omega) (by omega) hpre).choose = k
      at hk hrun hall hnext
    refine ⟨⟨46, fun fuel hf => ?_⟩, hall, hnext⟩
    apply fibonacci_to_n_mono n 46 fuel _ hf
    simp only [Nat.fib_zero, Nat.fib_one, Nat.cast_zero, Nat.cast_one, zero_add] at hrun
    simp only [fibonacci_to_n, hrun]
    have h0 : n ≥ 0 := by omega
    rw [if_pos h0, if_pos h1]
    obtain ⟨m, rfl⟩ : ∃ m, k = m + 2 := ⟨k - 2, by omega⟩
    simp [List.range_eq_range', List.range'_succ]
  · by_cases h0 : 0 ≤ n
    · refine ⟨1, ⟨1, fun fuel hf => ?_⟩, ?_, ?_⟩
      · apply fibonacci_to_n_mono n 1 fuel _ hf
        have hw : wrap32 (0 + 1) > n := by rw [wrap32_of_range _ (by omega) (by omega)]; omega
        simp only [fibonacci_to_n, fibonacci_to_n_loop, if_pos hw]
        have h0' : n ≥ 0 := h0
        have h1' : ¬ n ≥ 1 := h1
        rw [if_pos h0', if_neg h1']
        rfl
      · intro i hi
        interval_cases i
        simpa using h0
      · simp
        omega
    · refine ⟨0, ⟨1, fun fuel hf => ?_⟩, ?_, ?_⟩
      · apply fibonacci_to_n_mono n 1 fuel _ hf
        have hw : wrap32 (0 + 1) > n := by rw [wrap32_of_range _ (by omega) (by omega)]; omega
        simp only [fibonacci_to_n, fibonacci_to_n_loop, if_pos hw]
        have h0' : ¬ n ≥ 0 := h0
        have h1' : ¬ n ≥ 1 := h1
        rw [if_neg h0', if_neg h1']
        simp
      · intro i hi
        omega
      · simp
        omega

/-- C3 (amended): for every bound `n < 1836311903` (`= F_46`, the last
Fibonacci number that fits the type `int`), `fibonacci_to_n(n)`
halts and prints exactly `F_0, ..., F_(k-1)`, where every printed term is at
most `n` and the next term `F_k` exceeds `n`; nothing is printed when `n < 0`. -/
theorem fibonacci_to_n_terms (n : Int) (hn : n < 1836311903) :
    ∃ k, Halts (fun fuel => fibonacci_to_n fuel n)
        ((List.range k).map (fun i => (Nat.fib i : Int))) ∧
      (∀ i < k, (Nat.fib i : Int) ≤ n) ∧ n < Nat.fib k ∧ (n < 0 → k = 0) := by
  obtain ⟨k, h1, h2, h3⟩ := fibonacci_to_n_run n hn
  refine ⟨k, h1, h2, h3, fun hneg => ?_⟩
  by_contra hk
  have := h2 0 (by omega)
  simp at this
  omega

theorem fibonacci_to_n_terms_witness :
    (10 : Int) < 1836311903 ∧
    ∃ k, Halts (fun fuel => fibonacci_to_n fuel 10)
        ((List.range k).map (fun i => (Nat.fib i : Int))) ∧
      (∀ i < k, (Nat.fib i : Int) ≤ 10) ∧ (10 : Int) < Nat.fib k ∧ ((10 : Int) < 0 → k = 0) :=
  ⟨by decide, fibonacci_to_n_terms 10 (by decide)⟩

/-- C3 fails at `n = 1836311903`: the sum `F_45 + F_46` leaves the range of `int`,
the wrapped value `-1323752223` is printed, and the output is not an initial
segment of the Fibonacci sequence. -/
theorem fibonacci_to_n_overflow :
    (∃ out, Halts (fun fuel => fibonacci_to_n fuel 1836311903) out ∧
      (-1323752223 : Int) ∈ out) ∧
    ¬ ∃ k, Halts (fun fuel => fibonacci_to_n fuel 1836311903)
        ((List.range k).map (fun i => (Nat.fib i : Int))) := by
  obtain ⟨out, hout, hmem⟩ :
      ∃ out, fibonacci_to_n 60 1836311903 = some out ∧ (-1323752223 : Int) ∈ out := by
    decide
  have hhalt : Halts (fun fuel => fibonacci_to_n fuel 1836311903) out :=
    ⟨60, fun fuel hf => fibonacci_to_n_mono _ 60 fuel out hf hout⟩
  refine ⟨⟨out, hhalt, hmem⟩, ?_⟩
  rintro ⟨k, hk⟩
  have heq := Halts.unique hhalt hk
  rw [heq, List.mem_map] at hmem
  obtain ⟨i, _, hi⟩ := hmem
  have : (0 : Int) ≤ (Nat.fib i : Int) := Int.natCast_nonneg _
  omega

/-- The specification's examples for `fibonacci_to_n`. -/
theorem fibonacci_to_n_examples :
    fibonacci_to_n 10 10 = some [0, 1, 1, 2, 3, 5, 8] ∧ fibonacci_to_n 10 (-1) = some [] := by
  constructor <;> decide

/-! ## `n_fibonacci_elements` -/

theorem n_fibonacci_elements_loop_run (n : Int) : ∀ (fuel j : Nat),
    (n - ((j : Int) + 2)).toNat + 1 ≤ fuel →
    n_fibonacci_elements_loop fuel ((j : Int) + 2) (wrapU32 (Nat.fib j))
        (wrapU32 (Nat.fib (j + 1))) n =
      some ((List.range' (j + 2) (n - ((j : Int) + 2)).toNat).map
        (fun k => wrapU32 (Nat.fib k))) := by
  intro fuel
  induction fuel with
  | zero => intro j hf; omega
  | succ f ih =>
    intro j hf
    have hnext : wrapU32 (wrapU32 (Nat.fib j) + wrapU32 (Nat.fib (j + 1))) =
        wrapU32 (Nat.fib (j + 2)) := by
      rw [Nat.fib_add_two]
      unfold wrapU32
      omega
    simp only [n_fibonacci_elements_loop, hnext]
    by_cases hc : (j : Int) + 2 < n
    · rw [if_pos hc]
      have hi : (j : Int) + 2 + 1 = ((j + 1 : Nat) : Int) + 2 := by push_cast; ring
      rw [hi, ih (j + 1) (by omega)]
      have hlen : (n - ((j : Int) + 2)).toNat = (n - (((j + 1 : Nat) : Int) + 2)).toNat + 1 := by
        omega
      rw [hlen, List.range'_succ, List.map_cons]
    · rw [if_neg hc]
      have hlen : (n - ((j : Int) + 2)).toNat = 0 := by omega
      rw [hlen]
      rfl

/-- The function `n_fibonacci_elements(n)` halts for every `n`, and the `k`-th
number it prints is `F_k` reduced modulo `2^32`, for `k = 0, ..., n - 1`. -/
theorem n_fibonacci_elements_run (n : Int) :
    Halts (fun fuel => n_fibonacci_elements fuel n)
      ((List.range n.toNat).map (fun k => wrapU32 (Nat.fib k))) := by
  refine ⟨n.toNat + 1, fun fuel hf => ?_⟩
  have hrun := n_fibonacci_elements_loop_run n fuel 0 (by omega)
  have h0 : wrapU32 (Nat.fib 0) = 0 := by decide
  have h1 : wrapU32 (Nat.fib (0 + 1)) = 1 := by decide
  rw [h0, h1] at hrun
  simp only [Nat.cast_zero, zero_add] at hrun
  simp only [n_fibonacci_elements, hrun]
  by_cases hn2 : n ≥ 2
  · have hn1 : n ≥ 1 := by omega
    rw [if_pos hn1, if_pos hn2]
    obtain ⟨m, hm⟩ : ∃ m : Nat, n.toNat = m + 2 := ⟨n.toNat - 2, by omega⟩
    have hlen : (n - 2).toNat = m := by omega
    rw [hm, hlen, List.range_eq_range', List.range'_succ, List.range'_succ]
    simp only [List.map_cons, zero_add]
    rw [h0, (by decide : wrapU32 (Nat.fib 1) = 1)]
    rfl
  · rw [if_neg hn2]
    have hlen : (n - 2).toNat = 0 := by omega
    rw [hlen]
    by_cases hn1 : n ≥ 1
    · rw [if_pos hn1]
      have : n.toNat = 1 := by omega
      rw [this]
      rfl
    · rw [if_neg hn1]
      have : n.toNat = 0 := by omega
      rw [this]
      rfl

/-- C4: for every integer `n`, `n_fibonacci_elements(n)` halts and prints exactly
`n` numbers when `n ≥ 0` and none when `n ≤ 0`. -/
theorem n_fibonacci_elements_count (n : Int) :
    ∃ out, Halts (fun fuel => n_fibonacci_elements fuel n) out ∧
      (0 ≤ n → (out.length : Int) = n) ∧ (n ≤ 0 → out = []) := by
  refine ⟨_, n_fibonacci_elements_run n, ?_, ?_⟩
  · intro h
    rw [List.length_map, List.length_range]
    omega
  · intro h
    have : n.toNat = 0 := by omega
    rw [this]
    rfl

/-- The specification's examples for `n_fibonacci_elements`. -/
theorem n_fibonacci_elements_examples :
    n_fibonacci_elements 10 7 = some [0, 1, 1, 2, 3, 5, 8] ∧
    n_fibonacci_elements 10 0 = some [] ∧ n_fibonacci_elements 10 1 = some [0] := by
  refine ⟨?_, ?_, ?_⟩ <;> decide

theorem fib_47 : Nat.fib 47 = 2971215073 := by decide

theorem fib_48 : Nat.fib 48 = 4807526976 := by decide

/-- C5 (amended): for every count `n ≥ 0`, `n_fibonacci_elements(n)` halts, prints
`n` numbers, and the `k`-th of them equals `F_k` for every index `k ≤ 47`
(the indices whose Fibonacci number fits the 32-bit `unsigned` accumulator). -/
theorem n_fibonacci_elements_terms (n : Int) (hn : 0 ≤ n) :
    ∃ out, Halts (fun fuel => n_fibonacci_elements fuel n) out ∧
      (out.length : Int) = n ∧
      ∀ k, k < out.length → k ≤ 47 → out[k]? = some (Nat.fib k) := by
  refine ⟨_, n_fibonacci_elements_run n, ?_, ?_⟩
  · rw [List.length_map, List.length_range]
    omega
  · intro k hk hk47
    rw [List.length_map, List.length_range] at hk
    rw [List.getElem?_map, List.getElem?_range hk]
    have hle : Nat.fib k ≤ 2971215073 := by
      rw [← fib_47]
      exact Nat.fib_mono hk47
    simp only [Option.map_some', wrapU32]
    congr 1
    omega

theorem n_fibonacci_elements_terms_witness :
    (0 : Int) ≤ 7 ∧
    ∃ out, Halts (fun fuel => n_fibonacci_elements fuel 7) out ∧
      (out.length : Int) = 7 ∧
      ∀ k, k < out.length → k ≤ 47 → out[k]? = some (Nat.fib k) :=
  ⟨by decide, n_fibonacci_elements_terms 7 (by decide)⟩

/-- C5 fails at `n = 49`: the term of index 48 is printed as `512559680`, which is
`F_48 = 4807526976` reduced modulo `2^32`, not `F_48`. -/
theorem n_fibonacci_elements_wraps :
    ∃ out, Halts (fun fuel => n_fibonacci_elements fuel 49) out ∧
      out[48]? = some 512559680 ∧ out[48]? ≠ some (Nat.fib 48) := by
  refine ⟨_, n_fibonacci_elements_run 49, ?_⟩
  have h49 : (49 : Int).toNat = 49 := rfl
  have hget : ((List.range (49 : Int).toNat).map (fun k => wrapU32 (Nat.fib k)))[48]? =
      some 512559680 := by
    rw [h49, List.getElem?_map, List.getElem?_range (by omega)]
    simp only [Option.map_some', fib_48]
    rfl
  rw [hget, fib_48]
  exact ⟨rfl, by decide⟩

/-! ## `is_prime` -/

theorem not_prime_of_dvd (n i : Int) (hi : 2 ≤ i) (hlt : i < n) (hdvd : i ∣ n) :
    ¬ Nat.Prime n.toNat := by
  intro hp
  lift n to ℕ using (by omega)
  lift i to ℕ using (by omega)
  rw [Int.toNat_natCast] at hp
  rcases hp.eq_one_or_self_of_dvd i (Int.natCast_dvd_natCast.mp hdvd) with h | h
  · omega
  · omega

/-- A composite `int` value has a divisor `q ≥ 2` with `q * q ≤ n`. -/
theorem small_divisor_of_not_prime (n : Int) (hn : 2 ≤ n) (hnp : ¬ Nat.Prime n.toNat) :
    ∃ q : Int, 2 ≤ q ∧ q * q ≤ n ∧ q ∣ n := by
  lift n to ℕ using (by omega)
  rw [Int.toNat_natCast] at hnp
  have h1 : n.minFac ^ 2 ≤ n := Nat.minFac_sq_le_self (by omega) hnp
  have h2 : n.minFac ∣ n := Nat.minFac_dvd n
  have h3 : 2 ≤ n.minFac := (Nat.minFac_prime (by omega)).two_le
  refine ⟨(n.minFac : Int), by omega, ?_, Int.natCast_dvd_natCast.mpr h2⟩
  rw [pow_two] at h1
  exact_mod_cast h1

theorem is_prime_loop_correct (n : Int) (hn3 : 3 ≤ n) (hmax : n ≤ 2147483647)
    (hcase : n < 2147302921 ∨ ¬ Nat.Prime n.toNat) : ∀ (fuel : Nat) (i : Int),
    3 ≤ i → i ≤ 46339 → i % 2 = 1 → NoDivBelow i n → 46341 ≤ i + 2 * fuel →
    is_prime_loop fuel i n = some (if Nat.Prime n.toNat then 1 else 0) := by
  intro fuel
  induction fuel with
  | zero => intro i _ h2 _ _ hf; omega
  | succ f ih =>
    intro i hi3 himax hodd hno hf
    have hsq : i * i ≤ 2147302921 := by nlinarith
    have hw : wrap32 (i * i) = i * i := wrap32_of_range _ (by nlinarith) (by omega)
    simp only [is_prime_loop, hw]
    by_cases hc : i * i ≤ n
    · rw [if_pos hc, Int.tmod_eq_emod (by omega) (by omega)]
      have hin : i < n := by nlinarith
      by_cases hd : n % i = 0
      · rw [if_pos hd]
        have hnp : ¬ Nat.Prime n.toNat :=
          not_prime_of_dvd n i (by omega) hin (Int.dvd_of_emod_eq_zero hd)
        rw [if_neg hnp]
      · rw [if_neg hd]
        have hnd : ¬ i ∣ n := fun h => hd (Int.emod_eq_zero_of_dvd h)
        have hno' : NoDivBelow (i + 2) n := noDivBelow_step hi3 hodd hno hnd
        have hnext : i + 2 ≤ 46339 := by
          rcases hcase with hlt | hnp
          · have : i < 46339 := by nlinarith
            omega
          · obtain ⟨q, hq2, hqsq, hqdvd⟩ := small_divisor_of_not_prime n (by omega) hnp
            have hq1 : ¬ q < i + 2 := fun h => hno' q hq2 h hqdvd
            have hq3 : q < 46341 := by nlinarith
            omega
        rw [wrap32_of_range _ (by omega) (by omega)]
        exact ih (i + 2) (by omega) hnext (by omega) hno' (by omega)
    · rw [if_neg hc]
      have hp : Nat.Prime n.toNat := by
        apply prime_of_noDiv_sq n (by omega)
        intro d hd hdsq
        apply hno d hd
        nlinarith
      rw [if_pos hp]

/-- For every `int` value that is below `46339 * 46339 = 2147302921` or is not
prime, `is_prime` returns 1 if the value is prime and 0 otherwise, with any
fuel of at least 23169. -/
theorem is_prime_correct (n : Int) (hmax : n ≤ 2147483647)
    (hcase : n < 2147302921 ∨ ¬ Nat.Prime n.toNat) (fuel : Nat) (hf : 23169 ≤ fuel) :
    is_prime fuel n = some (if Nat.Prime n.toNat then 1 else 0) := by
  unfold is_prime
  by_cases h1 : n ≤ 1
  · rw [if_pos h1]
    have hnp : ¬ Nat.Prime n.toNat := fun hp => by
      have := hp.two_le
      omega
    rw [if_neg hnp]
  · rw [if_neg h1]
    by_cases h2 : n = 2
    · rw [if_pos h2, h2]
      have hp : Nat.Prime (2 : Int).toNat := Nat.prime_two
      rw [if_pos hp]
    · rw [if_neg h2, Int.tmod_eq_emod (by omega) (by omega)]
      by_cases h3 : n % 2 = 0
      · rw [if_pos h3]
        have hnp : ¬ Nat.Prime n.toNat :=
          not_prime_of_dvd n 2 (by omega) (by omega) (Int.dvd_of_emod_eq_zero h3)
        rw [if_neg hnp]
      · rw [if_neg h3]
        have hno : NoDivBelow 3 n := by
          intro d hd hlt hdvd
          have : d = 2 := by omega
          subst this
          exact h3 (Int.emod_eq_zero_of_dvd hdvd)
        exact is_prime_loop_correct n (by omega) hmax hcase fuel 3 (by omega) (by omega)
          (by omega) hno (by omega)

theorem powMod_eq (p : Nat) : ∀ (bits a k : Nat), k < 2 ^ bits →
    powMod p bits a k = a ^ k % p := by
  intro bits
  induction bits with
  | zero =>
    intro a k hk
    have : k = 0 := by simpa using hk
    subst this
    simp [powMod]
  | succ b ih =>
    intro a k hk
    have hk2 : k / 2 < 2 ^ b := by
      rw [pow_succ] at hk
      omega
    have hrec := ih (a * a % p) (k / 2) hk2
    have hsq : (a * a % p) ^ (k / 2) % p = (a * a) ^ (k / 2) % p := by
      rw [Nat.pow_mod, Nat.mod_mod, ← Nat.pow_mod]
    simp only [powMod, hrec, hsq]
    by_cases hodd : k % 2 = 1
    · rw [if_pos hodd]
      have hk' : k = 2 * (k / 2) + 1 := by omega
      conv_rhs => rw [hk', pow_succ, pow_mul, pow_two]
      rw [Nat.mul_mod, Nat.mod_mod, ← Nat.mul_mod, mul_comm]
    · rw [if_neg hodd]
      have hk' : k = 2 * (k / 2) := by omega
      conv_rhs => rw [hk', pow_mul, pow_two]

theorem zmod_pow_eq_one_iff (p a k : Nat) (hk : k < 2 ^ 31) :
    ((a : ZMod p) ^ k = 1) ↔ powMod p 31 a k = 1 % p := by
  rw [powMod_eq p 31 a k hk]
  have h : ((a : ZMod p) ^ k) = ((a ^ k : Nat) : ZMod p) := by push_cast; rfl
  rw [h, ← Nat.cast_one, ZMod.natCast_eq_natCast_iff']

/-- The value of `INT_MAX`, `2^31 - 1`, is a prime number (Lucas test with the
primitive root 7; `2^31 - 2 = 2 * 3 * 3 * 7 * 11 * 31 * 151 * 331`). -/
theorem prime_INT_MAX : Nat.Prime 2147483647 := by
  apply lucas_primality 2147483647 ((7 : Nat) : ZMod 2147483647)
  · rw [zmod_pow_eq_one_iff _ _ _ (by norm_num)]
    decide
  · intro q hq hdvd
    have hfac : 2147483647 - 1 = 2 * (3 * (3 * (7 * (11 * (31 * (151 * 331)))))) := by
      norm_num
    have hcases : q = 2 ∨ q = 3 ∨ q = 7 ∨ q = 11 ∨ q = 31 ∨ q = 151 ∨ q = 331 := by
      rw [hfac] at hdvd
      have e := fun (r : Nat) (hr : Nat.Prime r) (h : q ∣ r) =>
        (Nat.prime_dvd_prime_iff_eq hq hr).mp h
      rcases hq.dvd_mul.mp hdvd with h | hdvd
      · exact Or.inl (e 2 Nat.prime_two h)
      rcases hq.dvd_mul.mp hdvd with h | hdvd
      · exact Or.inr (Or.inl (e 3 Nat.prime_three h))
      rcases hq.dvd_mul.mp hdvd with h | hdvd
      · exact Or.inr (Or.inl (e 3 Nat.prime_three h))
      rcases hq.dvd_mul.mp hdvd with h | hdvd
      · exact Or.inr (Or.inr (Or.inl (e 7 (by norm_num) h)))
      rcases hq.dvd_mul.mp hdvd with h | hdvd
      · exact Or.inr (Or.inr (Or.inr (Or.inl (e 11 (by norm_num) h))))
      rcases hq.dvd_mul.mp hdvd with h | hdvd
      · exact Or.inr (Or.inr (Or.inr (Or.inr (Or.inl (e 31 (by norm_num) h)))))
      rcases hq.dvd_mul.mp hdvd with h | h
      · exact Or.inr (Or.inr (Or.inr (Or.inr (Or.inr (Or.inl (e 151 (by norm_num) h))))))
      · exact Or.inr (Or.inr (Or.inr (Or.inr (Or.inr (Or.inr (e 331 (by norm_num) h))))))
    rcases hcases with h | h | h | h | h | h | h <;> subst h <;>
      rw [Ne, zmod_pow_eq_one_iff _ _ _ (by norm_num)] <;> decide

theorem is_prime_loop_INT_MAX : ∀ (fuel : Nat) (i : Int), 3 ≤ i → i ≤ 2147483647 →
    i % 2 = 1 → 2147483647 - i + 2 ≤ 2 * fuel →
    is_prime_loop fuel i 2147483647 = some 0 := by
  intro fuel
  induction fuel with
  | zero => intro i _ _ _ hf; omega
  | succ f ih =>
    intro i hi3 himax hodd hf
    simp only [is_prime_loop]
    rw [if_pos (wrap32_le _), Int.tmod_eq_emod (by omega) (by omega)]
    by_cases hd : (2147483647 : Int) % i = 0
    · rw [if_pos hd]
    · rw [if_neg hd]
      have hne : i ≠ 2147483647 := by
        intro h
        rw [h] at hd
        exact hd (by decide)
      rw [wrap32_of_range _ (by omega) (by omega)]
      exact ih (i + 2) (by omega) (by omega) (by omega) (by omega)

/-- C6 fails at `n = 2147483647` (`INT_MAX`), which is prime: the test
`i * i <= n` can never fail there (at `i = 46341` the product `2147488281` has
left the range of `int`), so the loop ends only at `i = n`, where `n % i == 0`
makes `is_prime` return 0. -/
theorem is_prime_INT_MAX :
    Nat.Prime 2147483647 ∧ Halts (fun fuel => is_prime fuel 2147483647) 0 ∧
      wrap32 (46341 * 46341) = -2147479015 := by
  refine ⟨prime_INT_MAX, ⟨1073741823, fun fuel hf => ?_⟩, by decide⟩
  have h := is_prime_loop_INT_MAX fuel 3 (by omega) (by omega) (by omega) (by omega)
  simp only [is_prime]
  rw [if_neg (by decide), if_neg (by decide), if_neg (by decide)]
  exact h

/-- The specification's rules for small arguments. -/
theorem is_prime_examples :
    is_prime 10 (-7) = some 0 ∧ is_prime 10 0 = some 0 ∧ is_prime 10 1 = some 0 ∧
    is_prime 10 2 = some 1 ∧ is_prime 10 9 = some 0 ∧ is_prime 10 97 = some 1 := by
  refine ⟨?_, ?_, ?_, ?_, ?_, ?_⟩ <;> decide

/-! ## `find_next_prime` -/

theorem nth_prime_succ_le (m q : Nat) (hq : Nat.Prime q) (hlt : Nat.nth Nat.Prime m < q) :
    Nat.nth Nat.Prime (m + 1) ≤ q := by
  have hcount : Nat.nth Nat.Prime (Nat.count Nat.Prime q) = q := Nat.nth_count hq
  rw [← hcount] at hlt ⊢
  have hm : m < Nat.count Nat.Prime q := (Nat.nth_lt_nth Nat.infinite_setOf_prime).mp hlt
  exact (Nat.nth_le_nth Nat.infinite_setOf_prime).mpr hm

theorem find_next_prime_loop_run (pfuel : Nat) (hpf : 23169 ≤ pfuel) (stop : List Char)
    (hstop : ∀ ch ∈ stop.head?, ch.toLower ≠ 'n') : ∀ (fuel c m j : Nat),
    c ≤ Nat.nth Nat.Prime m → (∀ q, Nat.Prime q → c ≤ q → Nat.nth Nat.Prime m ≤ q) →
    Nat.nth Nat.Prime (m + j) < 2147302921 → Nat.nth Nat.Prime (m + j) - c + 1 ≤ fuel →
    find_next_prime_loop pfuel fuel (c : Int) (List.replicate j 'n' ++ stop) =
      some ((List.range' m (j + 1)).map (fun t => (Nat.nth Nat.Prime t : Int))) := by
  intro fuel
  induction fuel with
  | zero => intro c m j _ _ _ hf; omega
  | succ f ih =>
    intro c m j hc hleast hB hf
    have hmono : Nat.nth Nat.Prime m ≤ Nat.nth Nat.Prime (m + j) :=
      (Nat.nth_le_nth Nat.infinite_setOf_prime).mpr (by omega)
    have hprime : is_prime pfuel (c : Int) = some (if Nat.Prime c then 1 else 0) := by
      have := is_prime_correct (c : Int) (by omega) (Or.inl (by omega)) pfuel hpf
      rwa [Int.toNat_natCast] at this
    have hw : wrap32 ((c : Int) + 1) = ((c + 1 : Nat) : Int) := by
      rw [wrap32_of_range _ (by omega) (by omega)]
      push_cast
      rfl
    simp only [find_next_prime_loop, hprime, hw]
    by_cases hp : Nat.Prime c
    · have hcm : c = Nat.nth Nat.Prime m := le_antisymm hc (hleast c hp (le_refl _))
      rw [if_pos hp]
      simp only [ne_eq, one_ne_zero, not_false_eq_true, if_true]
      cases j with
      | zero =>
        simp only [List.replicate_zero, List.nil_append, zero_add, List.range'_one,
          List.map_cons, List.map_nil]
        cases stop with
        | nil => simp only [hcm]
        | cons ch rest =>
          have hch : ch.toLower ≠ 'n' := hstop ch (by simp)
          simp only [hch, ne_eq, not_false_eq_true, if_true, hcm]
      | succ j' =>
        have hidx : m + 1 + j' = m + (j' + 1) := by omega
        have hlt : Nat.nth Nat.Prime m < Nat.nth Nat.Prime (m + (j' + 1)) :=
          (Nat.nth_lt_nth Nat.infinite_setOf_prime).mpr (by omega)
        have hrec := ih (c + 1) (m + 1) j'
          (by
            have : Nat.nth Nat.Prime m < Nat.nth Nat.Prime (m + 1) :=
              (Nat.nth_lt_nth Nat.infinite_setOf_prime).mpr (by omega)
            omega)
          (fun q hq hcq => nth_prime_succ_le m q hq (by omega))
          (by rw [hidx]; exact hB)
          (by rw [hidx]; omega)
        have hn : ('n' : Char).toLower = 'n' := by decide
        simp only [List.replicate_succ, List.cons_append, hn, ne_eq, not_true_eq_false,
          if_false, hrec]
        rw [List.range'_succ m (j' + 1), List.map_cons, hcm]
    · rw [if_neg hp]
      simp only [ne_eq, not_true_eq_false, if_false]
      have hne : c ≠ Nat.nth Nat.Prime m := fun h => hp (h ▸ Nat.prime_nth_prime m)
      exact ih (c + 1) m j (by omega) (fun q hq hcq => hleast q hq (by omega)) hB (by omega)

/-- While the primes stay below `46339 * 46339 = 2147302921`, answering `n`
`k - 1` times makes `find_next_prime` display exactly the first `k` primes. -/
theorem find_next_prime_run (k : Nat) (hk : 1 ≤ k)
    (hB : Nat.nth Nat.Prime (k - 1) < 2147302921) (stop : List Char)
    (hstop : ∀ ch ∈ stop.head?, ch.toLower ≠ 'n') :
    Halts (fun fuel => find_next_prime fuel (List.replicate (k - 1) 'n' ++ stop))
      ((List.range k).map (fun t => (Nat.nth Nat.Prime t : Int))) := by
  refine ⟨Nat.nth Nat.Prime (k - 1) + 23169, fun fuel hf => ?_⟩
  have h := find_next_prime_loop_run fuel (by omega) stop hstop fuel 2 0 (k - 1)
    (by rw [Nat.nth_prime_zero_eq_two])
    (fun q hq _ => by rw [Nat.nth_prime_zero_eq_two]; exact hq.two_le)
    (by rw [zero_add]; exact hB) (by rw [zero_add]; omega)
  have hk1 : k - 1 + 1 = k := by omega
  rw [hk1] at h
  rw [List.range_eq_range']
  exact h

theorem find_next_prime_loop_le (pfuel : Nat) : ∀ (fuel : Nat) (c : Int) (replies : List Char)
    (out : List Int), c ≤ 2147483647 →
    find_next_prime_loop pfuel fuel c replies = some out → ∀ x ∈ out, x ≤ 2147483647 := by
  intro fuel
  induction fuel with
  | zero => intro c replies out _ h; simp [find_next_prime_loop] at h
  | succ f ih =>
    intro c replies out hc h x hx
    simp only [find_next_prime_loop] at h
    cases hp : is_prime pfuel c with
    | none => simp [hp] at h
    | some r =>
      simp only [hp] at h
      by_cases hr : r ≠ 0
      · rw [if_pos hr] at h
        cases replies with
        | nil =>
          simp only [Option.some.injEq] at h
          subst h
          rw [List.mem_singleton.mp hx]
          exact hc
        | cons ch rest =>
          simp only at h
          by_cases hch : ch.toLower ≠ 'n'
          · rw [if_pos hch] at h
            simp only [Option.some.injEq] at h
            subst h
            rw [List.mem_singleton.mp hx]
            exact hc
          · rw [if_neg hch] at h
            cases hrec : find_next_prime_loop pfuel f (wrap32 (c + 1)) rest with
            | none => simp [hrec] at h
            | some out' =>
              simp only [hrec, Option.some.injEq] at h
              subst h
              rcases List.mem_cons.mp hx with hx | hx
              · rw [hx]
                exact hc
              · exact ih _ rest out' (wrap32_le _) hrec x hx
      · rw [if_neg hr] at h
        exact ih _ replies out (wrap32_le _) h x hx

theorem is_prime_loop_INT_MAX_zero : ∀ (fuel : Nat) (i r : Int),
    is_prime_loop fuel i 2147483647 = some r → r = 0 := by
  intro fuel
  induction fuel with
  | zero => intro i r h; simp [is_prime_loop] at h
  | succ f ih =>
    intro i r h
    simp only [is_prime_loop] at h
    rw [if_pos (wrap32_le _)] at h
    by_cases hd : Int.tmod 2147483647 i = 0
    · rw [if_pos hd] at h
      exact (Option.some.inj h).symm
    · rw [if_neg hd] at h
      exact ih _ r h

/-- Whatever the replies, the prime `2147483647` is never displayed: `is_prime`
cannot return a non-zero value for it. -/
theorem find_next_prime_never_INT_MAX (pfuel : Nat) : ∀ (fuel : Nat) (c : Int)
    (replies : List Char) (out : List Int),
    find_next_prime_loop pfuel fuel c replies = some out → (2147483647 : Int) ∉ out := by
  intro fuel
  induction fuel with
  | zero => intro c replies out h; simp [find_next_prime_loop] at h
  | succ f ih =>
    intro c replies out h hx
    simp only [find_next_prime_loop] at h
    cases hp : is_prime pfuel c with
    | none => simp [hp] at h
    | some r =>
      simp only [hp] at h
      by_cases hr : r ≠ 0
      · have hc : c ≠ 2147483647 := by
          intro hc
          rw [hc] at hp
          simp only [is_prime] at hp
          rw [if_neg (by decide), if_neg (by decide), if_neg (by decide)] at hp
          exact hr (is_prime_loop_INT_MAX_zero pfuel 3 r hp)
        rw [if_pos hr] at h
        cases replies with
        | nil =>
          simp only [Option.some.injEq] at h
          subst h
          exact hc (List.mem_singleton.mp hx).symm
        | cons ch rest =>
          simp only at h
          by_cases hch : ch.toLower ≠ 'n'
          · rw [if_pos hch] at h
            simp only [Option.some.injEq] at h
            subst h
            exact hc (List.mem_singleton.mp hx).symm
          · rw [if_neg hch] at h
            cases hrec : find_next_prime_loop pfuel f (wrap32 (c + 1)) rest with
            | none => simp [hrec] at h
            | some out' =>
              simp only [hrec, Option.some.injEq] at h
              subst h
              rcases List.mem_cons.mp hx with hx | hx
              · exact hc hx.symm
              · exact ih _ rest out' hrec hx
      · rw [if_neg hr] at h
        exact ih _ replies out h hx

theorem nth_prime_four : Nat.nth Nat.Prime 4 = 11 := by
  have h := Nat.nth_count (p := Nat.Prime) (n := 11) (by norm_num)
  rwa [(by decide : Nat.count Nat.Prime 11 = 4)] at h

/-- C7 (amended): for every `k ≥ 1` whose `k`-th prime is below
`46339 * 46339 = 2147302921`, when the user answers `n` to the first `k - 1`
prompts and then stops (another character, or end of input), `find_next_prime`
halts having displayed exactly the first `k` primes in order: the values are
strictly increasing, each is prime, and every prime up to the last one shown
appears. -/
theorem find_next_prime_kth_prime (k : Nat) (hk : 1 ≤ k)
    (hB : Nat.nth Nat.Prime (k - 1) < 2147302921) (stop : List Char)
    (hstop : ∀ ch ∈ stop.head?, ch.toLower ≠ 'n') :
    ∃ out, Halts (fun fuel => find_next_prime fuel (List.replicate (k - 1) 'n' ++ stop)) out ∧
      out = (List.range k).map (fun t => (Nat.nth Nat.Prime t : Int)) ∧
      out.Pairwise (· < ·) ∧ (∀ x ∈ out, Nat.Prime x.toNat) ∧
      ∀ q, Nat.Prime q → q ≤ Nat.nth Nat.Prime (k - 1) → (q : Int) ∈ out := by
  refine ⟨_, find_next_prime_run k hk hB stop hstop, rfl, ?_, ?_, ?_⟩
  · rw [List.pairwise_map]
    refine List.Pairwise.imp ?_ (List.pairwise_lt_range k)
    intro a b hab
    have := (Nat.nth_lt_nth Nat.infinite_setOf_prime).mpr hab
    exact_mod_cast this
  · intro x hx
    obtain ⟨t, _, rfl⟩ := List.mem_map.mp hx
    rw [Int.toNat_natCast]
    exact Nat.prime_nth_prime t
  · intro q hq hle
    have hcount : Nat.nth Nat.Prime (Nat.count Nat.Prime q) = q := Nat.nth_count hq
    rw [← hcount] at hle
    have hidx : Nat.count Nat.Prime q ≤ k - 1 :=
      (Nat.nth_le_nth Nat.infinite_setOf_prime).mp hle
    exact List.mem_map.mpr ⟨Nat.count Nat.Prime q, List.mem_range.mpr (by omega), by rw [hcount]⟩

theorem find_next_prime_kth_prime_witness :
    1 ≤ 5 ∧ Nat.nth Nat.Prime (5 - 1) < 2147302921 ∧
    (∀ ch ∈ ['q'].head?, ch.toLower ≠ 'n') ∧
    ∃ out, Halts (fun fuel => find_next_prime fuel (List.replicate (5 - 1) 'n' ++ ['q'])) out ∧
      out = (List.range 5).map (fun t => (Nat.nth Nat.Prime t : Int)) ∧
      out.Pairwise (· < ·) ∧ (∀ x ∈ out, Nat.Prime x.toNat) ∧
      ∀ q, Nat.Prime q → q ≤ Nat.nth Nat.Prime (5 - 1) → (q : Int) ∈ out :=
  have h1 : Nat.nth Nat.Prime (5 - 1) < 2147302921 := by
    rw [(by decide : 5 - 1 = 4), nth_prime_four]
    decide
  have h2 : ∀ ch ∈ ['q'].head?, ch.toLower ≠ 'n' := by
    intro ch hch
    simp only [List.head?_cons, Option.mem_def, Option.some.injEq] at hch
    subst hch
    decide
  ⟨by decide, h1, h2, find_next_prime_kth_prime 5 (by decide) h1 ['q'] h2⟩

/-- C7 fails at `k = 2147483649`: every value displayed is an `int`, hence at most
`2147483647`, whereas the `2147483649`-th prime is larger than that. -/
theorem find_next_prime_int_bounded :
    ¬ Halts (fun fuel => find_next_prime fuel (List.replicate 2147483648 'n'))
      ((List.range 2147483649).map (fun t => (Nat.nth Nat.Prime t : Int))) := by
  rintro ⟨N, hN⟩
  have hrun := hN N (le_refl _)
  have hmem : ((Nat.nth Nat.Prime 2147483648 : Nat) : Int) ∈
      (List.range 2147483649).map (fun t => (Nat.nth Nat.Prime t : Int)) :=
    List.mem_map.mpr ⟨2147483648, List.mem_range.mpr (by omega), rfl⟩
  have hle := find_next_prime_loop_le N N 2 _ _ (by omega) hrun _ hmem
  have hge : 2147483648 ≤ Nat.nth Nat.Prime 2147483648 :=
    (Nat.nth_strictMono Nat.infinite_setOf_prime).id_le 2147483648
  omega

/-- The specification's example: the first five values displayed are
`2, 3, 5, 7, 11`; `N` continues like `n`, any other reply stops. -/
theorem find_next_prime_first_five :
    find_next_prime 20 ['n', 'N', 'n', 'n', 'q'] = some [2, 3, 5, 7, 11] := by decide

/-! ## `prime_factors` outside its contract, and its termination -/

theorem divide_out_zero (i : Int) : ∀ fuel : Nat, divide_out fuel i 0 = none := by
  intro fuel
  induction fuel with
  | zero => rfl
  | succ f ih => simp only [divide_out, Int.zero_tmod, Int.zero_tdiv, if_true, ih]

theorem divide_out_two_small : ∀ (fuel : Nat) (n : Int), n ≤ 1 → n ≠ 0 →
    (2 - n).toNat ≤ fuel →
    ∃ out m, divide_out fuel 2 n = some (out, m) ∧ (∀ x ∈ out, x = 2) ∧ m ≤ 1 ∧
      (n = 1 → out = []) ∧ out.prod * m = n ∧ ¬ (2 : Int) ∣ m := by
  intro fuel
  induction fuel with
  | zero => intro n h1 _ hf; omega
  | succ f ih =>
    intro n h1 h0 hf
    simp only [divide_out]
    by_cases hd : Int.tmod n 2 = 0
    · rw [if_pos hd]
      have hmul : Int.tdiv n 2 * 2 = n := Int.tdiv_mul_cancel_of_tmod_eq_zero hd
      obtain ⟨out, m, hrun, hall, hm, _, hprod, hodd⟩ :=
        ih (Int.tdiv n 2) (by omega) (by omega) (by omega)
      refine ⟨2 :: out, m, by rw [hrun], ?_, hm, fun h => by omega, ?_, hodd⟩
      · intro x hx
        rcases List.mem_cons.mp hx with hx | hx
        · exact hx
        · exact hall x hx
      · rw [List.prod_cons, mul_assoc, hprod]
        omega
    · rw [if_neg hd]
      exact ⟨[], n, rfl, by simp, h1, fun _ => rfl, by simp,
        fun hdvd => hd (Int.tmod_eq_zero_of_dvd hdvd)⟩

/-- C11 fails at `n = 0`: `0 % 2 == 0` and `0 / 2` is `0` again, so the first
loop of `prime_factors` never ends. -/
theorem prime_factors_zero_diverges : Diverges (fun fuel => prime_factors fuel 0) := by
  intro fuel
  simp only [prime_factors, divide_out_zero]

/-- C11 (amended): for every integer `n < 2` other than `0`, `prime_factors(n)`
halts with a degenerate result: it prints only `2`s, exactly one per factor 2
of `n` (the output is `k` copies of 2, where `n = 2^k * m` with `m` odd), and
nothing at all for `n = 1`.  For a negative `n` the limit is the embedding's
value of the undefined conversion of `pow(n, 0.5) + 1`; it is below 3, so the
odd-candidate loop is not entered. -/
theorem prime_factors_below_two (n : Int) (hn : n < 2) (h0 : n ≠ 0) :
    ∃ out, Halts (fun fuel => prime_factors fuel n) out ∧ (∀ x ∈ out, x = 2) ∧
      (n = 1 → out = []) ∧
      ∃ (k : Nat) (m : Int), out = List.replicate k 2 ∧ 2 ^ k * m = n ∧ ¬ (2 : Int) ∣ m := by
  obtain ⟨out, m, hrun, hall, hm, h1, hprod, hodd⟩ :=
    divide_out_two_small ((2 - n).toNat) n (by omega) h0 (le_refl _)
  have hfuel : ∃ g, (2 - n).toNat = g + 1 := ⟨(2 - n).toNat - 1, by omega⟩
  obtain ⟨g, hg⟩ := hfuel
  have hlim : ¬ (3 : Int) < sqrt_limit m := by
    unfold sqrt_limit
    have h2 : Nat.sqrt m.toNat ≤ m.toNat := Nat.sqrt_le_self _
    omega
  have hm2 : ¬ m > 2 := by omega
  have hpf : prime_factors ((2 - n).toNat) n = some out := by
    simp only [prime_factors, hrun]
    rw [hg]
    simp only [odd_loop, if_neg hlim, if_neg hm2, List.append_nil]
  have hrep : out = List.replicate out.length 2 := List.eq_replicate_of_mem hall
  refine ⟨out, ⟨(2 - n).toNat, fun fuel hf => prime_factors_mono n _ fuel out hf hpf⟩, hall, h1,
    out.length, m, hrep, ?_, hodd⟩
  rw [← List.prod_replicate, ← hrep]
  exact hprod

theorem prime_factors_below_two_witness :
    (-12 : Int) < 2 ∧ (-12 : Int) ≠ 0 ∧
    ∃ out, Halts (fun fuel => prime_factors fuel (-12)) out ∧ (∀ x ∈ out, x = 2) ∧
      ((-12 : Int) = 1 → out = []) ∧
      ∃ (k : Nat) (m : Int), out = List.replicate k 2 ∧ 2 ^ k * m = (-12 : Int) ∧
        ¬ (2 : Int) ∣ m :=
  ⟨by decide, by decide, prime_factors_below_two (-12) (by decide) (by decide)⟩

/-- The run on `-12 = 2^2 * (-3)`: two `2`s are printed and nothing else. -/
theorem prime_factors_minus_twelve : prime_factors 10 (-12) = some [2, 2] := by
  have h1 : divide_out 10 2 (-12) = some ([2, 2], -3) := by decide
  have h2 : sqrt_limit (-3) = 1 := by
    have : sqrt_limit ((0 : Nat) : Int) = ((0 : Nat) : Int) + 1 :=
      sqrt_limit_eval 0 0 (by decide) (by decide)
    unfold sqrt_limit at this ⊢
    exact this
  have h3 : odd_loop 10 10 1 3 (-3) = some ([], -3) := by decide
  simp only [prime_factors, h1, h2, h3]
  rfl

/-- C13: for every integer `n ≥ 2`, `prime_factors(n)` halts (any fuel above `n`
suffices), for these reasons: dividing a positive value by a divisor `i ≥ 2`
leaves a positive, strictly smaller value, so a division loop started on `m`
ends within `m` steps; and `i` grows by 2 toward a limit that does not change,
so the odd-candidate loop ends within `limit - i + 1` steps. -/
theorem prime_factors_terminates (n : Int) (hn : 2 ≤ n) :
    (∃ out, Halts (fun fuel => prime_factors fuel n) out ∧
      ∀ fuel, n.toNat + 1 ≤ fuel → prime_factors fuel n = some out) ∧
    (∀ i m : Int, 2 ≤ i → 1 ≤ m → Int.tmod m i = 0 →
      1 ≤ Int.tdiv m i ∧ Int.tdiv m i < m) ∧
    (∀ (i m : Int) (fuel : Nat), 2 ≤ i → 1 ≤ m → m.toNat ≤ fuel →
      (divide_out fuel i m).isSome) ∧
    (∀ (limit i m : Int) (inner fuel : Nat), 2 ≤ i → 1 ≤ m → m.toNat ≤ inner →
      (limit - i).toNat + 1 ≤ fuel → (odd_loop inner fuel limit i m).isSome) := by
  refine ⟨?_, ?_, ?_, ?_⟩
  · obtain ⟨out, N, hN⟩ := prime_factors_halts n hn
    have hout : prime_factors (n.toNat + 1) n = some out := by
      have h1 := hN (max N (n.toNat + 1)) (le_max_left _ _)
      obtain ⟨out', hout'⟩ : ∃ out', prime_factors (n.toNat + 1) n = some out' := by
        obtain ⟨⟨o1, n1⟩, hdiv⟩ :=
          divide_out_halts 2 (by omega) (n.toNat + 1) n (by omega) (by omega)
        obtain ⟨_, _, d3, d4, _, _⟩ := divide_out_spec 2 (by omega) _ n o1 n1 (by omega) hdiv
        have hle : n1 ≤ n := Int.le_of_dvd (by omega) d4
        have hsq : Nat.sqrt n1.toNat ≤ n1.toNat := Nat.sqrt_le_self _
        obtain ⟨⟨o2, n2⟩, hodd⟩ := odd_loop_halts (n.toNat + 1) (sqrt_limit n1) (n.toNat + 1) 3
          n1 (by omega) d3 (by omega) (by unfold sqrt_limit; omega)
        exact ⟨o1 ++ o2 ++ (if n2 > 2 then [n2] else []), by
          simp only [prime_factors, hdiv, hodd]⟩
      have h2 := prime_factors_mono n _ (max N (n.toNat + 1)) out' (le_max_right _ _) hout'
      have h3 : some out = some out' := h1.symm.trans h2
      rw [hout', Option.some.inj h3]
    exact ⟨out, ⟨N, hN⟩, fun fuel hf => prime_factors_mono n _ fuel out hf hout⟩
  · intro i m hi hm hd
    rw [Int.tmod_eq_emod (by omega) (by omega)] at hd
    rw [Int.tdiv_eq_ediv (by omega) (by omega)]
    have hmul : i * (m / i) = m := Int.mul_ediv_cancel' (Int.dvd_of_emod_eq_zero hd)
    have hq : 1 ≤ m / i := by
      by_contra hc
      have : m / i ≤ 0 := by omega
      nlinarith
    exact ⟨hq, by nlinarith⟩
  · intro i m fuel hi hm hf
    obtain ⟨r, hr⟩ := divide_out_halts i hi fuel m hm hf
    rw [hr]
    rfl
  · intro limit i m inner fuel hi hm hin hf
    obtain ⟨r, hr⟩ := odd_loop_halts inner limit fuel i m hi hm hin hf
    rw [hr]
    rfl

theorem prime_factors_terminates_witness :
    (2 : Int) ≤ 360 ∧
    ((∃ out, Halts (fun fuel => prime_factors fuel 360) out ∧
      ∀ fuel, (360 : Int).toNat + 1 ≤ fuel → prime_factors fuel 360 = some out) ∧
    (∀ i m : Int, 2 ≤ i → 1 ≤ m → Int.tmod m i = 0 →
      1 ≤ Int.tdiv m i ∧ Int.tdiv m i < m) ∧
    (∀ (i m : Int) (fuel : Nat), 2 ≤ i → 1 ≤ m → m.toNat ≤ fuel →
      (divide_out fuel i m).isSome) ∧
    (∀ (limit i m : Int) (inner fuel : Nat), 2 ≤ i → 1 ≤ m → m.toNat ≤ inner →
      (limit - i).toNat + 1 ≤ fuel → (odd_loop inner fuel limit i m).isSome)) :=
  ⟨by decide, prime_factors_terminates 360 (by decide)⟩

/-! ## The `unsigned` accumulator of `n_fibonacci_elements` -/

/-- C18: for every `n ≥ 0` and every `k < n`, the `k`-th number printed by
`n_fibonacci_elements(n)` is `F_k mod 2^32`; it equals `F_k` exactly when
`k ≤ 47`, and `F_48 = 4807526976` is printed as `512559680`. -/
theorem n_fibonacci_elements_mod (n : Int) (hn : 0 ≤ n) :
    ∃ out, Halts (fun fuel => n_fibonacci_elements fuel n) out ∧
      (∀ k : Nat, (k : Int) < n →
        out[k]? = some (Nat.fib k % 4294967296) ∧
        (Nat.fib k % 4294967296 = Nat.fib k ↔ k ≤ 47)) ∧
      Nat.fib 48 = 4807526976 ∧ Nat.fib 48 % 4294967296 = 512559680 := by
  refine ⟨_, n_fibonacci_elements_run n, ?_, fib_48, by rw [fib_48]⟩
  intro k hk
  constructor
  · rw [List.getElem?_map, List.getElem?_range (by omega)]
    rfl
  · constructor
    · intro h
      by_contra hc
      have h48 : Nat.fib 48 ≤ Nat.fib k := Nat.fib_mono (by omega)
      rw [fib_48] at h48
      have : Nat.fib k % 4294967296 < 4294967296 := Nat.mod_lt _ (by omega)
      omega
    · intro h
      have h47 : Nat.fib k ≤ Nat.fib 47 := Nat.fib_mono h
      rw [fib_47] at h47
      exact Nat.mod_eq_of_lt (by omega)

theorem n_fibonacci_elements_mod_witness :
    (0 : Int) ≤ 49 ∧
    ∃ out, Halts (fun fuel => n_fibonacci_elements fuel 49) out ∧
      (∀ k : Nat, (k : Int) < 49 →
        out[k]? = some (Nat.fib k % 4294967296) ∧
        (Nat.fib k % 4294967296 = Nat.fib k ↔ k ≤ 47)) ∧
      Nat.fib 48 = 4807526976 ∧ Nat.fib 48 % 4294967296 = 512559680 :=
  ⟨by decide, n_fibonacci_elements_mod 49 (by decide)⟩

/-! ## Termination of `fibonacci_to_n` under wrap-around -/

theorem fib_double (q : Nat) :
    fibPred (2 * q) = fibPred q * fibPred q + Nat.fib q * Nat.fib q ∧
    Nat.fib (2 * q) = Nat.fib q * (fibPred q + Nat.fib (q + 1)) ∧
    Nat.fib (2 * q + 1) = Nat.fib q * Nat.fib q + Nat.fib (q + 1) * Nat.fib (q + 1) := by
  have h3 : Nat.fib (2 * q + 1) = Nat.fib q * Nat.fib q + Nat.fib (q + 1) * Nat.fib (q + 1) := by
    rw [Nat.fib_two_mul_add_one]; ring
  cases q with
  | zero => simp [fibPred]
  | succ r =>
    refine ⟨?_, ?_, h3⟩
    · have : 2 * (r + 1) - 1 = 2 * r + 1 := by omega
      simp only [fibPred, Nat.add_sub_cancel, this]
      rw [if_neg (by omega), if_neg (by omega), Nat.fib_two_mul_add_one]
      ring
    · simp only [fibPred]
      rw [if_neg (by omega), Nat.add_sub_cancel, Nat.fib_two_mul]
      have h : Nat.fib (r + 1 + 1) = Nat.fib r + Nat.fib (r + 1) := Nat.fib_add_two
      rw [h]
      congr 1
      omega

theorem fibTripleMod_eq (m : Nat) : ∀ (bits k : Nat), k < 2 ^ bits →
    fibTripleMod m bits k = (fibPred k % m, Nat.fib k % m, Nat.fib (k + 1) % m) := by
  intro bits
  induction bits with
  | zero =>
    intro k hk
    have : k = 0 := by simpa using hk
    subst this
    simp [fibTripleMod, fibPred]
  | succ b ih =>
    intro k hk
    have hk2 : k / 2 < 2 ^ b := by
      rw [pow_succ] at hk
      omega
    obtain ⟨d1, d2, d3⟩ := fib_double (k / 2)
    simp only [fibTripleMod, ih (k / 2) hk2]
    have e1 : (fibPred (k / 2) % m * (fibPred (k / 2) % m) + Nat.fib (k / 2) % m * (Nat.fib (k / 2) % m)) % m
        = fibPred (2 * (k / 2)) % m := by
      rw [d1]; simp [Nat.add_mod, Nat.mul_mod]
    have e2 : (Nat.fib (k / 2) % m * (fibPred (k / 2) % m + Nat.fib (k / 2 + 1) % m)) % m
        = Nat.fib (2 * (k / 2)) % m := by
      rw [d2]; simp [Nat.add_mod, Nat.mul_mod]
    have e3 : (Nat.fib (k / 2) % m * (Nat.fib (k / 2) % m) + Nat.fib (k / 2 + 1) % m * (Nat.fib (k / 2 + 1) % m)) % m
        = Nat.fib (2 * (k / 2) + 1) % m := by
      rw [d3]; simp [Nat.add_mod, Nat.mul_mod]
    rw [e1, e2, e3]
    by_cases hpar : k % 2 = 0
    · rw [if_pos hpar]
      have hk' : 2 * (k / 2) = k := by omega
      rw [hk']
    · rw [if_neg hpar]
      have hk' : k = 2 * (k / 2) + 1 := by omega
      have hp : fibPred k = Nat.fib (2 * (k / 2)) := by
        unfold fibPred
        rw [if_neg (by omega)]
        congr 1
        omega
      have hs : Nat.fib (k + 1) = Nat.fib (2 * (k / 2)) + Nat.fib (2 * (k / 2) + 1) := by
        conv_lhs => rw [hk']
        exact Nat.fib_add_two
      rw [hp, hs, ← hk', ← Nat.add_mod]


theorem fib_residue_aux (J : Nat) (hJ : J = 3221225470) :
    Nat.fib J % 4294967296 = 2147483647 := by
  have hlt : J < 2 ^ 32 := by rw [hJ]; norm_num
  have h := fibTripleMod_eq 4294967296 32 J hlt
  have h2 : (fibTripleMod 4294967296 32 J).2.1 = Nat.fib J % 4294967296 := by rw [h]
  have h3 : (fibTripleMod 4294967296 32 J).2.1 = 2147483647 := by rw [hJ]; decide
  exact h2.symm.trans h3

theorem exists_fib_INT_MAX : ∃ J : Nat, 2 ≤ J ∧ Nat.fib J % 4294967296 = 2147483647 :=
  ⟨3221225470, by norm_num, fib_residue_aux _ rfl⟩

theorem wrap32_add_wrap32 (a b : Int) : wrap32 (wrap32 a + wrap32 b) = wrap32 (a + b) := by
  unfold wrap32
  omega

theorem fibonacci_to_n_loop_halts (n : Int) (hn : n < 2147483647) (J : Nat)
    (hJ : Nat.fib J % 4294967296 = 2147483647) : ∀ (fuel t : Nat), t + 2 ≤ J →
    J ≤ t + 1 + fuel →
    ∃ out, fibonacci_to_n_loop fuel (wrap32 (Nat.fib t)) (wrap32 (Nat.fib (t + 1))) n =
      some out := by
  intro fuel
  induction fuel with
  | zero => intro t h1 h2; omega
  | succ f ih =>
    intro t h1 h2
    have hnext : wrap32 (wrap32 (Nat.fib t) + wrap32 (Nat.fib (t + 1))) =
        wrap32 (Nat.fib (t + 2)) := by
      rw [wrap32_add_wrap32, Nat.fib_add_two]
      push_cast
      rfl
    simp only [fibonacci_to_n_loop, hnext]
    by_cases hc : wrap32 (Nat.fib (t + 2)) > n
    · rw [if_pos hc]
      exact ⟨[], rfl⟩
    · rw [if_neg hc]
      have hne : t + 2 ≠ J := by
        intro h
        rw [h] at hc
        apply hc
        unfold wrap32
        omega
      obtain ⟨out, hout⟩ := ih (t + 1) (by omega) (by omega)
      rw [hout]
      exact ⟨_, rfl⟩

theorem fibonacci_to_n_loop_INT_MAX : ∀ (fuel : Nat) (f1 f2 : Int),
    fibonacci_to_n_loop fuel f1 f2 2147483647 = none := by
  intro fuel
  induction fuel with
  | zero => intro f1 f2; rfl
  | succ f ih =>
    intro f1 f2
    have hc : ¬ wrap32 (f1 + f2) > 2147483647 := by
      have := wrap32_le (f1 + f2)
      omega
    simp only [fibonacci_to_n_loop, if_neg hc, ih]

/-- C12 fails at `n = 2147483647` (`INT_MAX`): no wrapped `int` value exceeds
it, so the test `next > n` never succeeds and the loop never ends. -/
theorem fibonacci_to_n_INT_MAX_diverges :
    Diverges (fun fuel => fibonacci_to_n fuel 2147483647) := by
  intro fuel
  simp only [fibonacci_to_n, fibonacci_to_n_loop_INT_MAX]

/-- C12 (amended): for every bound `n` below `INT_MAX` (negative, zero or
positive), with the `int` addition wrapping modulo `2^32`, the loop of
`fibonacci_to_n(n)` terminates: some computed `next` exceeds `n`, at the
latest the term of index 3221225470, whose wrapped value is `2147483647`. -/
theorem fibonacci_to_n_terminates (n : Int) (hn : n < 2147483647) :
    ∃ out, Halts (fun fuel => fibonacci_to_n fuel n) out := by
  obtain ⟨J, hJ2, hJ⟩ := exists_fib_INT_MAX
  obtain ⟨out, hout⟩ := fibonacci_to_n_loop_halts n hn J hJ J 0 (by omega) (by omega)
  have h0 : wrap32 ((Nat.fib 0 : Nat) : Int) = 0 := by decide
  have h1 : wrap32 ((Nat.fib (0 + 1) : Nat) : Int) = 1 := by decide
  rw [h0, h1] at hout
  have hrun : fibonacci_to_n J n =
      some ((if n ≥ 0 then [0] else []) ++ (if n ≥ 1 then [1] else []) ++ out) := by
    simp only [fibonacci_to_n, hout]
  exact ⟨_, J, fun fuel hf => fibonacci_to_n_mono n J fuel _ hf hrun⟩

theorem fibonacci_to_n_terminates_witness :
    (2147483646 : Int) < 2147483647 ∧
    ∃ out, Halts (fun fuel => fibonacci_to_n fuel 2147483646) out :=
  ⟨by decide, fibonacci_to_n_terminates 2147483646 (by decide)⟩

/-! ## The series of `find_e_to_nth_digit`, in exact arithmetic -/

theorem find_e_to_nth_digit_loop_run (acc : ℚ) (K : Nat)
    (hK : 1 / (K.factorial : ℚ) < acc) (hmin : ∀ k < K, ¬ 1 / (k.factorial : ℚ) < acc) :
    ∀ (fuel k : Nat), k ≤ K → K - k + 1 ≤ fuel →
    find_e_to_nth_digit_loop fuel acc
        (Finset.sum (Finset.range k) (fun j => 1 / (j.factorial : ℚ)))
        (k.factorial : ℚ) (k : ℚ) =
      some (Finset.sum (Finset.range (K + 1)) (fun j => 1 / (j.factorial : ℚ))) := by
  intro fuel
  induction fuel with
  | zero => intro k _ hf; omega
  | succ f ih =>
    intro k hk hf
    simp only [find_e_to_nth_digit_loop]
    by_cases hkK : k = K
    · subst hkK
      rw [if_pos hK, Finset.sum_range_succ]
    · have hlt : k < K := by omega
      rw [if_neg (hmin k hlt)]
      have hsum : Finset.sum (Finset.range k) (fun j => 1 / (j.factorial : ℚ)) +
          1 / (k.factorial : ℚ) =
          Finset.sum (Finset.range (k + 1)) (fun j => 1 / (j.factorial : ℚ)) := by
        rw [Finset.sum_range_succ]
      have hfac : (k.factorial : ℚ) * ((k : ℚ) + 1) = ((k + 1).factorial : ℚ) := by
        rw [Nat.factorial_succ]
        push_cast
        ring
      have hk1 : (k : ℚ) + 1 = ((k + 1 : Nat) : ℚ) := by push_cast; rfl
      rw [hsum, hfac, hk1]
      exact ih (k + 1) (by omega) (by omega)

theorem exists_small_term (n : Int) (hn : 0 ≤ n) :
    ∃ k : Nat, 1 / (k.factorial : ℚ) < (10 : ℚ) ^ (-n) := by
  obtain ⟨m, rfl⟩ : ∃ m : Nat, n = (m : Int) := ⟨n.toNat, by omega⟩
  refine ⟨10 ^ m + 1, ?_⟩
  rw [zpow_neg, zpow_natCast, ← one_div]
  apply one_div_lt_one_div_of_lt (by positivity)
  have h1 : 10 ^ m + 1 ≤ (10 ^ m + 1).factorial := Nat.self_le_factorial _
  have h2 : ((10 ^ m + 1 : Nat) : ℚ) ≤ ((10 ^ m + 1).factorial : ℚ) := by exact_mod_cast h1
  have h3 : ((10 ^ m + 1 : Nat) : ℚ) = (10 : ℚ) ^ m + 1 := by push_cast; rfl
  rw [h3] at h2
  linarith

/-- C14: for every `n ≥ 0`, in exact arithmetic, the loop of
`find_e_to_nth_digit(n)` halts and the value of `e` before rounding is the sum
of `1/k!` for `k = 0..K`, where `K` is the least `k` with `1/k! < 10^(-n)`: the
first term below the threshold is added, and none after it. -/
theorem find_e_to_nth_digit_inclusive_stop (n : Int) (hn : 0 ≤ n) :
    ∃ K : Nat,
      Halts (fun fuel => find_e_to_nth_digit_sum fuel n)
        (Finset.sum (Finset.range (K + 1)) (fun k => 1 / (k.factorial : ℚ))) ∧
      1 / (K.factorial : ℚ) < (10 : ℚ) ^ (-n) ∧
      ∀ k < K, ¬ 1 / (k.factorial : ℚ) < (10 : ℚ) ^ (-n) := by
  classical
  have hex := exists_small_term n hn
  refine ⟨Nat.find hex, ⟨Nat.find hex + 1, fun fuel hf => ?_⟩, Nat.find_spec hex,
    fun k hk => Nat.find_min hex hk⟩
  have h := find_e_to_nth_digit_loop_run ((10 : ℚ) ^ (-n)) (Nat.find hex) (Nat.find_spec hex)
    (fun k hk => Nat.find_min hex hk) fuel 0 (Nat.zero_le _) (by omega)
  simp only [Finset.range_zero, Finset.sum_empty, Nat.factorial_zero, Nat.cast_one,
    Nat.cast_zero] at h
  exact h

theorem find_e_to_nth_digit_inclusive_stop_witness :
    (0 : Int) ≤ 2 ∧
    ∃ K : Nat,
      Halts (fun fuel => find_e_to_nth_digit_sum fuel 2)
        (Finset.sum (Finset.range (K + 1)) (fun k => 1 / (k.factorial : ℚ))) ∧
      1 / (K.factorial : ℚ) < (10 : ℚ) ^ (-(2 : Int)) ∧
      ∀ k < K, ¬ 1 / (k.factorial : ℚ) < (10 : ℚ) ^ (-(2 : Int)) :=
  ⟨by decide, find_e_to_nth_digit_inclusive_stop 2 (by decide)⟩

/-- For `n = 0` the threshold is `1`: the terms `1/0!`, `1/1!` and `1/2!` are
added and the value before rounding is `5/2`. -/
theorem find_e_to_nth_digit_sum_zero : find_e_to_nth_digit_sum 3 0 = some (5 / 2) := by
  simp only [find_e_to_nth_digit_sum, find_e_to_nth_digit_loop]
  norm_num

/-! ## The stale limit of `prime_factors` against a refreshed limit -/

theorem is_prime_squares_loop_isSome : ∀ (fuel : Nat) (i n : Int),
    (is_prime_squares_loop fuel i n).isSome = (is_prime_loop fuel i n).isSome := by
  intro fuel
  induction fuel with
  | zero => intro i n; rfl
  | succ f ih =>
    intro i n
    simp only [is_prime_squares_loop, is_prime_loop]
    by_cases hc : wrap32 (i * i) ≤ n
    · rw [if_pos hc, if_pos hc]
      by_cases hd : Int.tmod n i = 0
      · rw [if_pos hd, if_pos hd]
        rfl
      · rw [if_neg hd, if_neg hd, ← ih]
        cases is_prime_squares_loop f (wrap32 (i + 2)) n <;> rfl
    · rw [if_neg hc, if_neg hc]
      rfl

theorem is_prime_squares_loop_mono (n : Int) : ∀ (fuel fuel' : Nat) (i : Int) (t : List Int),
    fuel ≤ fuel' → is_prime_squares_loop fuel i n = some t →
    is_prime_squares_loop fuel' i n = some t := by
  intro fuel
  induction fuel with
  | zero => intro fuel' i t _ h; simp [is_prime_squares_loop] at h
  | succ f ih =>
    intro fuel' i t hle h
    obtain ⟨g, rfl⟩ : ∃ g, fuel' = g + 1 := ⟨fuel' - 1, by omega⟩
    simp only [is_prime_squares_loop] at h ⊢
    by_cases hc : wrap32 (i * i) ≤ n
    · rw [if_pos hc] at h ⊢
      by_cases hd : Int.tmod n i = 0
      · rw [if_pos hd] at h ⊢
        exact h
      · rw [if_neg hd] at h ⊢
        cases hrec : is_prime_squares_loop f (wrap32 (i + 2)) n with
        | none => simp [hrec] at h
        | some q =>
          have hrec' := ih g (wrap32 (i + 2)) q (by omega) hrec
          simp only [hrec] at h
          simp only [hrec']
          exact h
    · rw [if_neg hc] at h ⊢
      exact h

theorem INT_MAX_divisor (i : Int) (hi : 3 ≤ i) (hle : i ≤ 2147483647)
    (hd : (2147483647 : Int) % i = 0) : i = 2147483647 := by
  by_contra hne
  have hp : Nat.Prime (2147483647 : Int).toNat := prime_INT_MAX
  exact not_prime_of_dvd 2147483647 i (by omega) (by omega) (Int.dvd_of_emod_eq_zero hd) hp

theorem is_prime_squares_loop_INT_MAX : ∀ (fuel : Nat) (i : Int), 3 ≤ i → i ≤ 2147483647 →
    i % 2 = 1 → 2147483647 - i + 2 ≤ 2 * fuel →
    ∃ t, is_prime_squares_loop fuel i 2147483647 = some t ∧
      (i ≤ 46341 → (46341 * 46341 : Int) ∈ t) := by
  intro fuel
  induction fuel with
  | zero => intro i _ _ _ hf; omega
  | succ f ih =>
    intro i hi3 himax hodd hf
    simp only [is_prime_squares_loop]
    rw [if_pos (wrap32_le _), Int.tmod_eq_emod (by omega) (by omega)]
    by_cases hd : (2147483647 : Int) % i = 0
    · rw [if_pos hd]
      have hi : i = 2147483647 := INT_MAX_divisor i hi3 himax hd
      exact ⟨_, rfl, fun h => by omega⟩
    · rw [if_neg hd]
      have hne : i ≠ 2147483647 := by
        intro h
        rw [h] at hd
        exact hd (by decide)
      rw [wrap32_of_range _ (by omega) (by omega)]
      obtain ⟨t, ht, hmem⟩ := ih (i + 2) (by omega) (by omega) (by omega) (by omega)
      rw [ht]
      refine ⟨_, rfl, fun h => ?_⟩
      by_cases h1 : i = 46341
      · rw [h1]
        exact List.mem_cons_self _ _
      · exact List.mem_cons_of_mem _ (hmem (by omega))

/-- C19 fails at `n = 2147483647` (`INT_MAX`): the call halts, and among the
products evaluated by the loop condition is `46341 * 46341 = 2147488281`, which
is above `INT_MAX`. -/
theorem is_prime_squares_INT_MAX :
    ∃ t, Halts (fun fuel => is_prime_squares fuel 2147483647) t ∧
      (46341 * 46341 : Int) ∈ t ∧ (46341 * 46341 : Int) > 2147483647 := by
  obtain ⟨t, ht, hmem⟩ :=
    is_prime_squares_loop_INT_MAX 1073741823 3 (by omega) (by omega) (by omega) (by omega)
  refine ⟨t, ⟨1073741823, fun fuel hf => ?_⟩, hmem (by omega), by decide⟩
  simp only [is_prime_squares]
  rw [if_neg (by decide), if_neg (by decide), if_neg (by decide)]
  exact is_prime_squares_loop_mono _ _ fuel 3 t hf ht

/-- Below `46339 * 46339 = 2147302921`, and for every composite `int`, no product
evaluated by the loop condition of `is_prime` leaves the range of `int`. -/
theorem is_prime_squares_loop_bounded (n : Int) (hn3 : 3 ≤ n) (hmax : n ≤ 2147483647)
    (hcase : n < 2147302921 ∨ ¬ Nat.Prime n.toNat) : ∀ (fuel : Nat) (i : Int) (t : List Int),
    3 ≤ i → i ≤ 46339 → i % 2 = 1 → NoDivBelow i n →
    is_prime_squares_loop fuel i n = some t → ∀ x ∈ t, x ≤ 2147483647 := by
  intro fuel
  induction fuel with
  | zero => intro i t _ _ _ _ h; simp [is_prime_squares_loop] at h
  | succ f ih =>
    intro i t hi3 himax hodd hno h x hx
    have hsq : i * i ≤ 2147302921 := by nlinarith
    have hw : wrap32 (i * i) = i * i := wrap32_of_range _ (by nlinarith) (by omega)
    simp only [is_prime_squares_loop, hw] at h
    by_cases hc : i * i ≤ n
    · rw [if_pos hc, Int.tmod_eq_emod (by omega) (by omega)] at h
      by_cases hd : n % i = 0
      · rw [if_pos hd] at h
        rw [← Option.some.inj h] at hx
        rw [List.mem_singleton.mp hx]
        omega
      · rw [if_neg hd] at h
        have hnd : ¬ i ∣ n := fun h => hd (Int.emod_eq_zero_of_dvd h)
        have hno' : NoDivBelow (i + 2) n := noDivBelow_step hi3 hodd hno hnd
        have hnext : i + 2 ≤ 46339 := by
          rcases hcase with hlt | hnp
          · have : i < 46339 := by nlinarith
            omega
          · obtain ⟨q, hq2, hqsq, hqdvd⟩ := small_divisor_of_not_prime n (by omega) hnp
            have hq1 : ¬ q < i + 2 := fun h => hno' q hq2 h hqdvd
            have hq3 : q < 46341 := by nlinarith
            omega
        rw [wrap32_of_range _ (by omega) (by omega)] at h
        cases hrec : is_prime_squares_loop f (i + 2) n with
        | none => simp [hrec] at h
        | some t' =>
          simp only [hrec, Option.some.injEq] at h
          rw [← h] at hx
          rcases List.mem_cons.mp hx with hx | hx
          · rw [hx]
            omega
          · exact ih (i + 2) t' (by omega) hnext (by omega) hno' hrec x hx
    · rw [if_neg hc] at h
      rw [← Option.some.inj h] at hx
      rw [List.mem_singleton.mp hx]
      omega

/-! ## The replies read by `find_next_prime` -/

/-- The test `tolower(choice) != 'n'` lets the stream continue exactly for the
replies `n` and `N`. -/
theorem toLower_eq_n (c : Char) : c.toLower = 'n' ↔ (c = 'n' ∨ c = 'N') := by
  constructor
  · intro h
    by_cases hu : c.toNat ≥ 65 ∧ c.toNat ≤ 90
    · right
      have hc : Char.ofNat c.toNat = c := Char.ofNat_toNat c
      obtain ⟨h1, h2⟩ := hu
      rw [← hc] at h ⊢
      generalize c.toNat = k at h h1 h2
      interval_cases k <;> first | rfl | (exfalso; revert h; decide)
    · left
      unfold Char.toLower at h
      simp only [hu, if_false] at h
      exact h
  · rintro (h | h) <;> subst h <;> decide

theorem is_prime_loop_mono (n : Int) : ∀ (fuel fuel' : Nat) (i r : Int),
    fuel ≤ fuel' → is_prime_loop fuel i n = some r → is_prime_loop fuel' i n = some r := by
  intro fuel
  induction fuel with
  | zero => intro fuel' i r _ h; simp [is_prime_loop] at h
  | succ f ih =>
    intro fuel' i r hle h
    obtain ⟨g, rfl⟩ : ∃ g, fuel' = g + 1 := ⟨fuel' - 1, by omega⟩
    simp only [is_prime_loop] at h ⊢
    by_cases hc : wrap32 (i * i) ≤ n
    · rw [if_pos hc] at h ⊢
      by_cases hd : Int.tmod n i = 0
      · rw [if_pos hd] at h ⊢
        exact h
      · rw [if_neg hd] at h ⊢
        exact ih g _ r (by omega) h
    · rw [if_neg hc] at h ⊢
      exact h

theorem is_prime_mono (n : Int) (fuel fuel' : Nat) (r : Int) (hle : fuel ≤ fuel')
    (h : is_prime fuel n = some r) : is_prime fuel' n = some r := by
  unfold is_prime at h ⊢
  by_cases h1 : n ≤ 1
  · rw [if_pos h1] at h ⊢
    exact h
  · rw [if_neg h1] at h ⊢
    by_cases h2 : n = 2
    · rw [if_pos h2] at h ⊢
      exact h
    · rw [if_neg h2] at h ⊢
      by_cases h3 : Int.tmod n 2 = 0
      · rw [if_pos h3] at h ⊢
        exact h
      · rw [if_neg h3] at h ⊢
        exact is_prime_loop_mono n fuel fuel' 3 r hle h

theorem is_prime_loop_total (n : Int) (hmax : n ≤ 2147483647) (hodd : n % 2 = 1) :
    ∀ (fuel : Nat) (i : Int), 3 ≤ i → i ≤ n → i % 2 = 1 → n - i + 2 ≤ 2 * fuel →
    ∃ r, is_prime_loop fuel i n = some r := by
  intro fuel
  induction fuel with
  | zero => intro i _ _ _ hf; omega
  | succ f ih =>
    intro i hi3 hin hio hf
    simp only [is_prime_loop]
    by_cases hc : wrap32 (i * i) ≤ n
    · rw [if_pos hc, Int.tmod_eq_emod (by omega) (by omega)]
      by_cases hd : n % i = 0
      · rw [if_pos hd]
        exact ⟨0, rfl⟩
      · rw [if_neg hd]
        have hne : i ≠ n := by
          intro h
          rw [h] at hd
          exact hd (Int.emod_self)
        rw [wrap32_of_range _ (by omega) (by omega)]
        exact ih (i + 2) (by omega) (by omega) (by omega) (by omega)
    · rw [if_neg hc]
      exact ⟨1, rfl⟩

/-- The function `is_prime` returns for every `int` argument. -/
theorem is_prime_total (c : Int) (hmax : c ≤ 2147483647) :
    ∃ r, is_prime 1073741824 c = some r := by
  unfold is_prime
  by_cases h1 : c ≤ 1
  · rw [if_pos h1]
    exact ⟨0, rfl⟩
  · rw [if_neg h1]
    by_cases h2 : c = 2
    · rw [if_pos h2]
      exact ⟨1, rfl⟩
    · rw [if_neg h2, Int.tmod_eq_emod (by omega) (by omega)]
      by_cases h3 : c % 2 = 0
      · rw [if_pos h3]
        exact ⟨0, rfl⟩
      · rw [if_neg h3]
        exact is_prime_loop_total c hmax (by omega) 1073741824 3 (by omega) (by omega)
          (by omega) (by omega)

theorem find_next_prime_loop_mono : ∀ (fuel fuel' pfuel pfuel' : Nat) (c : Int)
    (replies : List Char) (out : List Int), fuel ≤ fuel' → pfuel ≤ pfuel' →
    find_next_prime_loop pfuel fuel c replies = some out →
    find_next_prime_loop pfuel' fuel' c replies = some out := by
  intro fuel
  induction fuel with
  | zero => intro fuel' pfuel pfuel' c replies out _ _ h; simp [find_next_prime_loop] at h
  | succ f ih =>
    intro fuel' pfuel pfuel' c replies out hle hp h
    obtain ⟨g, rfl⟩ : ∃ g, fuel' = g + 1 := ⟨fuel' - 1, by omega⟩
    simp only [find_next_prime_loop] at h ⊢
    cases hpr : is_prime pfuel c with
    | none => simp [hpr] at h
    | some r =>
      have hpr' := is_prime_mono c pfuel pfuel' r hp hpr
      simp only [hpr] at h
      simp only [hpr']
      by_cases hr : r ≠ 0
      · rw [if_pos hr] at h ⊢
        cases replies with
        | nil => exact h
        | cons ch rest =>
          simp only at h ⊢
          by_cases hch : ch.toLower ≠ 'n'
          · rw [if_pos hch] at h ⊢
            exact h
          · rw [if_neg hch] at h ⊢
            cases hrec : find_next_prime_loop pfuel f (wrap32 (c + 1)) rest with
            | none => simp [hrec] at h
            | some out' =>
              have hrec' := ih g pfuel pfuel' _ rest out' (by omega) hp hrec
              simp only [hrec] at h
              simp only [hrec']
              exact h
      · rw [if_neg hr] at h ⊢
        exact ih g pfuel pfuel' _ replies out (by omega) hp h

theorem find_next_prime_loop_length (pfuel : Nat) : ∀ (fuel : Nat) (c : Int)
    (replies : List Char) (out : List Int),
    find_next_prime_loop pfuel fuel c replies = some out →
    out.length = 1 + (replies.takeWhile (fun ch => ch == 'n' || ch == 'N')).length := by
  intro fuel
  induction fuel with
  | zero => intro c replies out h; simp [find_next_prime_loop] at h
  | succ f ih =>
    intro c replies out h
    simp only [find_next_prime_loop] at h
    cases hpr : is_prime pfuel c with
    | none => simp [hpr] at h
    | some r =>
      simp only [hpr] at h
      by_cases hr : r ≠ 0
      · rw [if_pos hr] at h
        cases replies with
        | nil =>
          simp only [Option.some.injEq] at h
          subst h
          rfl
        | cons ch rest =>
          simp only at h
          by_cases hch : ch.toLower ≠ 'n'
          · rw [if_pos hch] at h
            simp only [Option.some.injEq] at h
            subst h
            have hno : ¬ (ch = 'n' ∨ ch = 'N') := fun hh => hch ((toLower_eq_n ch).mpr hh)
            have hb : (ch == 'n' || ch == 'N') = false := by
              simpa using hno
            simp [List.takeWhile_cons, hb]
          · rw [if_neg hch] at h
            cases hrec : find_next_prime_loop pfuel f (wrap32 (c + 1)) rest with
            | none => simp [hrec] at h
            | some out' =>
              simp only [hrec, Option.some.injEq] at h
              subst h
              have hyes : ch = 'n' ∨ ch = 'N' := (toLower_eq_n ch).mp (not_not.mp hch)
              have hb : (ch == 'n' || ch == 'N') = true := by
                simpa using hyes
              have hlen := ih _ rest out' hrec
              simp only [List.takeWhile_cons, hb, if_true, List.length_cons, hlen]
              omega
      · rw [if_neg hr] at h
        exact ih _ replies out h

theorem find_next_prime_loop_shown (replies : List Char)
    (hnext : ∀ ch rest, replies = ch :: rest → ∀ c' : Int, -2147483648 ≤ c' →
      c' ≤ 2147483647 → ∃ F out, find_next_prime_loop 1073741824 F c' rest = some out)
    (c r : Int) (hpr : is_prime 1073741824 c = some r) (hr : r ≠ 0) :
    ∃ F out, find_next_prime_loop 1073741824 F c replies = some out := by
  cases replies with
  | nil =>
    refine ⟨1, [c], ?_⟩
    simp only [find_next_prime_loop, hpr, if_pos hr]
  | cons ch rest =>
    by_cases hch : ch.toLower ≠ 'n'
    · refine ⟨1, [c], ?_⟩
      simp only [find_next_prime_loop, hpr, if_pos hr, if_pos hch]
    · obtain ⟨F, out, hrun⟩ := hnext ch rest rfl (wrap32 (c + 1)) (wrap32_ge _) (wrap32_le _)
      refine ⟨F + 1, c :: out, ?_⟩
      simp only [find_next_prime_loop, hpr, if_pos hr, if_neg hch, hrun]

theorem find_next_prime_loop_reach (replies : List Char)
    (hnext : ∀ ch rest, replies = ch :: rest → ∀ c' : Int, -2147483648 ≤ c' →
      c' ≤ 2147483647 → ∃ F out, find_next_prime_loop 1073741824 F c' rest = some out) :
    ∀ (d : Nat) (c : Int), -2147483648 ≤ c → c ≤ 2147483647 →
    ((2 - c) % 4294967296).toNat = d →
    ∃ F out, find_next_prime_loop 1073741824 F c replies = some out := by
  intro d
  induction d with
  | zero =>
    intro c hlo hhi hd
    have hc : c = 2 := by omega
    subst hc
    exact find_next_prime_loop_shown replies hnext 2 1 (by decide) (by decide)
  | succ d' ih =>
    intro c hlo hhi hd
    obtain ⟨r, hpr⟩ := is_prime_total c hhi
    by_cases hr : r ≠ 0
    · exact find_next_prime_loop_shown replies hnext c r hpr hr
    · have hd' : ((2 - wrap32 (c + 1)) % 4294967296).toNat = d' := by
        unfold wrap32
        omega
      obtain ⟨F, out, hrun⟩ := ih (wrap32 (c + 1)) (wrap32_ge _) (wrap32_le _) hd'
      refine ⟨F + 1, out, ?_⟩
      simp only [find_next_prime_loop, hpr, if_neg hr, hrun]

/-- From every cursor value and for every sequence of replies the loop of
`find_next_prime` comes to an end. -/
theorem find_next_prime_loop_progress : ∀ (replies : List Char) (c : Int),
    -2147483648 ≤ c → c ≤ 2147483647 →
    ∃ F out, find_next_prime_loop 1073741824 F c replies = some out := by
  intro replies
  induction replies with
  | nil =>
    intro c hlo hhi
    exact find_next_prime_loop_reach [] (fun ch rest h => by simp at h) _ c hlo hhi rfl
  | cons ch rest ih =>
    intro c hlo hhi
    refine find_next_prime_loop_reach (ch :: rest) (fun ch' rest' h c' h1 h2 => ?_) _ c hlo hhi
      rfl
    have hrest : rest = rest' := (List.cons.inj h).2
    subst hrest
    exact ih c' h1 h2

/-- C17: for every sequence of replies, read one per displayed prime,
`find_next_prime` halts, and the number of values displayed is 1 plus the
length of the longest prefix of the replies made only of `n` and `N`: the stream
goes on exactly after such a reply and stops at the first other character or at
the end of the input. -/
theorem find_next_prime_count (replies : List Char) :
    ∃ out, Halts (fun fuel => find_next_prime fuel replies) out ∧
      out.length = 1 + (replies.takeWhile (fun ch => ch == 'n' || ch == 'N')).length := by
  obtain ⟨F, out, hrun⟩ := find_next_prime_loop_progress replies 2 (by omega) (by omega)
  refine ⟨out, ⟨max 1073741824 F, fun fuel hf => ?_⟩,
    find_next_prime_loop_length _ _ _ _ _ hrun⟩
  exact find_next_prime_loop_mono F fuel 1073741824 fuel 2 replies out
    (le_trans (le_max_right _ _) hf) (le_trans (le_max_left _ _) hf) hrun

/-- Replies `n`, `N`, then `q`: three values are displayed, and the reply after
`q` is never read. -/
theorem find_next_prime_stops_at_other :
    find_next_prime 20 ['n', 'N', 'q', 'n'] = some [2, 3, 5] ∧
    find_next_prime 20 ['n', 'N'] = some [2, 3, 5] ∧
    find_next_prime 20 [] = some [2] := by
  refine ⟨?_, ?_, ?_⟩ <;> decide

end Numbers
